import Mathlib

/-!
# Byte-wise binary diff / restore (`main.cpp`)

A shallow embedding of the two engines of the program, `Diff` and `Restore`,
together with the buffered reader `IfstreamHangler`, the buffered writer
`OfstreamHangler`, the command-line parser `Arguments`, and the parts of the C++
stream library they rely on (decimal text output, formatted extraction with
`eofbit` / `failbit`).

Conventions.
* A byte (`uint8_t`) is a `Fin 256`; a binary file is a `List Byte`.
* `size_t` counters are natural numbers reduced modulo `SIZE_MOD = 2 ^ 64`.
* Memory that the program reads before writing it (the fresh `new uint8_t[]`
  buffers, the local `int byte`) is a parameter of the initial state.
* Every `while` loop takes an iteration budget; `none` means that the budget
  was used up before the loop condition became false.
* The diagnostic output on `std::cerr` / `std::cout` is not modelled.
* A C string (`char*`, `std::string`) is a `List Char`; `argv` is the list of its
  strings and `argc` its length.
-/

namespace BinDiff

/-- An 8-bit value (`uint8_t`). -/
abbrev Byte := Fin 256

/-- Modulus of `size_t` arithmetic (`2 ^ 64`). -/
def SIZE_MOD : Nat := 18446744073709551616

/-- `static const size_t BUFFER_SIZE = 4096;` -/
def BUFFER_SIZE : Nat := 4096

/-! ## `IfstreamHangler`: the buffered reader -/

/-- State of an `IfstreamHangler`. `stream_` is the content of the opened file and
`fail_` the failure state of the underlying `std::ifstream`; `buf_` is the
`BUFFER_SIZE`-byte array, indexed from `0`. -/
structure IfstreamHangler where
  stream_ : List Byte
  fail_ : Bool
  buf_ : Nat → Byte
  sz_ : Nat
  done_ : Nat
  ind_ : Nat

/-- The constructor: the file is opened, `buf_` is freshly allocated (its content
`mem` is indeterminate), `ind_` starts at `BUFFER_SIZE`, `sz_` is the position
reported at the end of the file and `done_` is `0`. -/
def IfstreamHangler.create (file : List Byte) (mem : Nat → Byte) : IfstreamHangler :=
  { stream_ := file, fail_ := false, buf_ := mem,
    sz_ := file.length % SIZE_MOD, done_ := 0, ind_ := BUFFER_SIZE }

/-- `bool IsEof() const { return done_ == sz_; }` -/
def IfstreamHangler.IsEof (h : IfstreamHangler) : Bool :=
  h.done_ == h.sz_

/-- The refill branch of `GetByte`:
`ind_ = 0; stream_.seekg(done_); stream_.read(buf_, min(sz_ - done_, BUFFER_SIZE));`.
A stream that has failed reads nothing; a read that gets fewer bytes than it
asked for stores what it got and puts the stream in the failed state. -/
def IfstreamHangler.refill (h : IfstreamHangler) : IfstreamHangler :=
  let n := min ((h.sz_ + SIZE_MOD - h.done_) % SIZE_MOD) BUFFER_SIZE
  if h.fail_ then { h with ind_ := 0 }
  else
    let got := (h.stream_.drop h.done_).take n
    { h with
      ind_ := 0
      buf_ := fun i => got.getD i (h.buf_ i)
      fail_ := decide (got.length < n) }

/-- The state in which `GetByte` reads its byte: refilled when `ind_ == BUFFER_SIZE`. -/
def IfstreamHangler.ready (h : IfstreamHangler) : IfstreamHangler :=
  if h.ind_ == BUFFER_SIZE then h.refill else h

/-- `uint8_t GetByte()`: refill if the buffer is used up, `++done_`,
`return buf_[ind_++]`. Returns the byte and the new state. -/
def IfstreamHangler.GetByte (h : IfstreamHangler) : Byte × IfstreamHangler :=
  (h.ready.buf_ h.ready.ind_,
   { h.ready with done_ := (h.ready.done_ + 1) % SIZE_MOD, ind_ := h.ready.ind_ + 1 })

/-! ## Text output on a `std::ofstream` -/

/-- Decimal text of an unsigned value, as `operator<<` prints a `size_t` or a
non-negative `int`. -/
def decimal (n : Nat) : List Char :=
  Nat.toDigits 10 n

/-! ## `Diff` -/

/-- The variables of `Diff` that live across loop iterations. `out_file` is the
text written so far. -/
structure DiffState where
  old_file : IfstreamHangler
  new_file : IfstreamHangler
  out_file : List Char
  offset : Nat

/-- One iteration of the first loop of `Diff`: read a byte from each file, write a
`c` line when they differ, `++offset`. -/
def Diff.body1 (s : DiffState) : DiffState :=
  let old_byte := s.old_file.GetByte.1
  let new_byte := s.new_file.GetByte.1
  { old_file := s.old_file.GetByte.2
    new_file := s.new_file.GetByte.2
    out_file :=
      if old_byte != new_byte then
        s.out_file ++ decimal s.offset ++ [' ', 'c', ' '] ++ decimal old_byte.val
          ++ [' '] ++ decimal new_byte.val ++ ['\n']
      else s.out_file
    offset := (s.offset + 1) % SIZE_MOD }

/-- `while (!old_file.IsEof() && !new_file.IsEof()) { ... }` -/
def Diff.loop1 : Nat → DiffState → Option DiffState
  | 0, _ => none
  | fuel + 1, s =>
    if !s.old_file.IsEof && !s.new_file.IsEof then Diff.loop1 fuel (Diff.body1 s)
    else some s

/-- One iteration of the second loop: `old_byte = old_file.GetByte();`
`out_file << offset++ << " d\n";`. -/
def Diff.body2 (s : DiffState) : DiffState :=
  { s with
    old_file := s.old_file.GetByte.2
    out_file := s.out_file ++ decimal s.offset ++ [' ', 'd', '\n']
    offset := (s.offset + 1) % SIZE_MOD }

/-- `while (!old_file.IsEof()) { old_byte = old_file.GetByte(); ... }` -/
def Diff.loop2 : Nat → DiffState → Option DiffState
  | 0, _ => none
  | fuel + 1, s =>
    if !s.old_file.IsEof then Diff.loop2 fuel (Diff.body2 s) else some s

/-- One iteration of the third loop: `new_byte = new_file.GetByte();`
`out_file << offset++ << " i\n";`. -/
def Diff.body3 (s : DiffState) : DiffState :=
  { s with
    new_file := s.new_file.GetByte.2
    out_file := s.out_file ++ decimal s.offset ++ [' ', 'i', '\n']
    offset := (s.offset + 1) % SIZE_MOD }

/-- `while (!old_file.IsEof()) { new_byte = new_file.GetByte(); ... }`: the
condition tests the old file, the body reads the new one. -/
def Diff.loop3 : Nat → DiffState → Option DiffState
  | 0, _ => none
  | fuel + 1, s =>
    if !s.old_file.IsEof then Diff.loop3 fuel (Diff.body3 s) else some s

/-- `void Diff(IfstreamHangler& old_file, IfstreamHangler& new_file,`
`std::ofstream& out_file)`: the three loops in sequence, each with the iteration
budget `fuel`. The result holds both readers and the text written. -/
def Diff (fuel : Nat) (old_file new_file : IfstreamHangler) (out_file : List Char) :
    Option DiffState :=
  (Diff.loop1 fuel { old_file, new_file, out_file, offset := 0 }).bind fun s1 =>
    (Diff.loop2 fuel s1).bind fun s2 => Diff.loop3 fuel s2

/-- The diff mode of `main`: both files are opened, the output file starts empty,
and the result is the text of the change list. -/
def diffText (fuel : Nat) (O N : List Byte) (memO memN : Nat → Byte) : Option (List Char) :=
  (Diff fuel (IfstreamHangler.create O memO) (IfstreamHangler.create N memN) []).map
    fun s => s.out_file


/-! ## `OfstreamHangler`: the buffered writer -/

/-- State of an `OfstreamHangler`: `stream_` holds the bytes already written to the
file, `buf_` is the `BUFFER_SIZE`-byte array and `ind_` the number of bytes in it. -/
structure OfstreamHangler where
  stream_ : List Byte
  buf_ : Nat → Byte
  ind_ : Nat

/-- The constructor: the output file is created empty, `buf_` is freshly allocated
with indeterminate content `mem`, `ind_` is `0`. -/
def OfstreamHangler.create (mem : Nat → Byte) : OfstreamHangler :=
  { stream_ := [], buf_ := mem, ind_ := 0 }

/-- `stream_.write(buf_, n)`: the first `n` bytes of the buffer are appended to the file. -/
def OfstreamHangler.write (h : OfstreamHangler) (n : Nat) : List Byte :=
  h.stream_ ++ (List.range n).map h.buf_

/-- The state in which `PutByte` stores its byte: a full buffer is written out and
`ind_` reset first. -/
def OfstreamHangler.ready (h : OfstreamHangler) : OfstreamHangler :=
  if h.ind_ == BUFFER_SIZE then { h with ind_ := 0, stream_ := h.write BUFFER_SIZE } else h

/-- `void PutByte(const uint8_t& byte)`: flush if the buffer is full, then
`buf_[ind_++] = byte`. -/
def OfstreamHangler.PutByte (h : OfstreamHangler) (byte : Byte) : OfstreamHangler :=
  { h.ready with
    buf_ := fun i => if i = h.ready.ind_ then byte else h.ready.buf_ i
    ind_ := h.ready.ind_ + 1 }

/-- The destructor: `if (ind_) stream_.write(buf_, ind_);` and the file is closed.
The result is the final content of the output file. -/
def OfstreamHangler.destroy (h : OfstreamHangler) : List Byte :=
  if h.ind_ != 0 then h.write h.ind_ else h.stream_

/-! ## Formatted input from a `std::ifstream` -/

/-- State of a text input stream: the characters not yet extracted and the two
state flags the program can observe. -/
structure Ifstream where
  rest : List Char
  eofbit : Bool
  failbit : Bool

/-- A stream freshly opened on a file with content `text`. -/
def Ifstream.create (text : List Char) : Ifstream :=
  { rest := text, eofbit := false, failbit := false }

/-- `in_file.eof()` -/
def Ifstream.eof (s : Ifstream) : Bool :=
  s.eofbit

/-- `isspace` in the "C" locale: space, `\t`, `\n`, `\v`, `\f`, `\r`. -/
def isspace (c : Char) : Bool :=
  c == ' ' || c == '\t' || c == '\n' || c == Char.ofNat 11 || c == Char.ofNat 12 || c == '\r'

/-- The `sentry` of a formatted extraction (`skipws` set). A stream that is not
`good()` gets `failbit` and the extraction is skipped. Otherwise whitespace is
discarded; reaching the end of the stream while doing so sets `eofbit` and `failbit`. -/
def Ifstream.sentry (s : Ifstream) : Bool × Ifstream :=
  if s.eofbit || s.failbit then (false, { s with failbit := true })
  else if (s.rest.dropWhile isspace).isEmpty then
    (false, { rest := [], eofbit := true, failbit := true })
  else (true, { s with rest := s.rest.dropWhile isspace })

/-- The optional sign in front of a number: whether it is `-`, and what follows. -/
def scanSign : List Char → Bool × List Char
  | '-' :: r => (true, r)
  | '+' :: r => (false, r)
  | cs => (false, cs)

/-- Value of a string of decimal digits. -/
def digitsValue (ds : List Char) : Nat :=
  ds.foldl (fun a c => 10 * a + (c.toNat - 48)) 0

/-- What `num_get` takes from the stream for a decimal integer: sign, digits, and
the characters left. -/
structure Scanned where
  negative : Bool
  digits : List Char
  rest : List Char

/-- Scan an optional sign and the longest run of decimal digits. -/
def scanNumber (cs : List Char) : Scanned :=
  { negative := (scanSign cs).1
    digits := (scanSign cs).2.takeWhile Char.isDigit
    rest := (scanSign cs).2.dropWhile Char.isDigit }

/-- `in_file >> v` for `size_t v`. When the sentry fails `v` keeps its value. With no
digit the result is `0` and `failbit`; a value that does not fit gives the largest
`size_t` and `failbit`; a negative number is negated modulo `2 ^ 64`. Stopping at the
end of the stream sets `eofbit`. -/
def Ifstream.extractSizeT (s : Ifstream) (v : Nat) : Nat × Ifstream :=
  if s.sentry.1 then
    let sc := scanNumber s.sentry.2.rest
    let n := digitsValue sc.digits
    if sc.digits.isEmpty then
      (0, { rest := sc.rest, eofbit := sc.rest.isEmpty, failbit := true })
    else if SIZE_MOD ≤ n then
      (SIZE_MOD - 1, { rest := sc.rest, eofbit := sc.rest.isEmpty, failbit := true })
    else
      (if sc.negative then (SIZE_MOD - n) % SIZE_MOD else n,
       { rest := sc.rest, eofbit := sc.rest.isEmpty, failbit := false })
  else (v, s.sentry.2)

/-- Smallest `int`. -/
def INT_MIN : Int := -2147483648

/-- Largest `int`. -/
def INT_MAX : Int := 2147483647

/-- `in_file >> v` for `int v`. When the sentry fails `v` keeps its value. With no
digit the result is `0` and `failbit`; a value outside the range of `int` is clamped
to the nearest bound with `failbit`. Stopping at the end of the stream sets `eofbit`. -/
def Ifstream.extractInt (s : Ifstream) (v : Int) : Int × Ifstream :=
  if s.sentry.1 then
    let sc := scanNumber s.sentry.2.rest
    let l : Int := if sc.negative then -(digitsValue sc.digits : Int) else digitsValue sc.digits
    if sc.digits.isEmpty then
      (0, { rest := sc.rest, eofbit := sc.rest.isEmpty, failbit := true })
    else if l < INT_MIN then
      (INT_MIN, { rest := sc.rest, eofbit := sc.rest.isEmpty, failbit := true })
    else if INT_MAX < l then
      (INT_MAX, { rest := sc.rest, eofbit := sc.rest.isEmpty, failbit := true })
    else (l, { rest := sc.rest, eofbit := sc.rest.isEmpty, failbit := false })
  else (v, s.sentry.2)

/-- `in_file >> v` for `std::string v`. When the sentry fails `v` keeps its value.
Otherwise `v` becomes the characters up to the next whitespace or the end of the
stream; stopping at the end sets `eofbit`. -/
def Ifstream.extractString (s : Ifstream) (v : List Char) : List Char × Ifstream :=
  if s.sentry.1 then
    let w := s.sentry.2.rest.takeWhile fun c => !isspace c
    let r := s.sentry.2.rest.dropWhile fun c => !isspace c
    (w, { rest := r, eofbit := r.isEmpty, failbit := w.isEmpty })
  else (v, s.sentry.2)

/-! ## `Restore` -/

/-- Conversion of an `int` argument to the `uint8_t` parameter of `PutByte`. -/
def toByte (byte : Int) : Byte :=
  Fin.ofNat (byte % 256).toNat

/-- The variables of `Restore`. -/
structure RestoreState where
  old_file : IfstreamHangler
  in_file : Ifstream
  new_file : OfstreamHangler
  offset : Nat
  old_offset : Nat
  type : List Char
  byte : Int

/-- How a piece of `Restore` ends: normally, or by
`throw std::runtime_error(what)`; either way with the state reached. -/
inductive Outcome where
  | done (s : RestoreState)
  | threw (what : String) (s : RestoreState)

/-- `in_file >> offset >> type;` -/
def Restore.readHeader (s : RestoreState) : RestoreState :=
  { s with
    offset := (s.in_file.extractSizeT s.offset).1
    type := ((s.in_file.extractSizeT s.offset).2.extractString s.type).1
    in_file := ((s.in_file.extractSizeT s.offset).2.extractString s.type).2 }

/-- The body of both copying loops: `++old_offset; new_file.PutByte(old_file.GetByte());` -/
def Restore.copyByte (s : RestoreState) : RestoreState :=
  { s with
    old_offset := (s.old_offset + 1) % SIZE_MOD
    old_file := s.old_file.GetByte.2
    new_file := s.new_file.PutByte s.old_file.GetByte.1 }

/-- `while (!old_file.IsEof() && old_offset < offset) { ... }` -/
def Restore.copyForward : Nat → RestoreState → Option RestoreState
  | 0, _ => none
  | fuel + 1, s =>
    if !s.old_file.IsEof && decide (s.old_offset < s.offset) then
      Restore.copyForward fuel (Restore.copyByte s)
    else some s

/-- The `if (type == "c") ... else if (type == "d") ... else if (type == "i") ...`
`else throw ...` of the record loop. -/
def Restore.dispatch (s : RestoreState) : Outcome :=
  if s.type = ['c'] then
    let r := (s.in_file.extractInt s.byte).2.extractInt (s.in_file.extractInt s.byte).1
    .done { s with
      old_file := s.old_file.GetByte.2
      in_file := r.2
      byte := r.1
      new_file := s.new_file.PutByte (toByte r.1) }
  else if s.type = ['d'] then .done s
  else if s.type = ['i'] then
    let r := s.in_file.extractInt s.byte
    .done { s with
      in_file := r.2
      byte := r.1
      new_file := s.new_file.PutByte (toByte r.1) }
  else .threw "Wrong symbol for diff type" s

/-- One pass through the body of the record loop: read `offset` and `type`, copy
forward (budget `n`), dispatch. `none` when the copy-forward loop used up its budget. -/
def Restore.iteration (n : Nat) (s : RestoreState) : Option Outcome :=
  (Restore.copyForward n (Restore.readHeader s)).map Restore.dispatch

/-- `while (!in_file.eof()) { ... }`: at most `fuel` iterations, each inner
copy-forward loop with the budget `n`. -/
def Restore.records : Nat → Nat → RestoreState → Option Outcome
  | 0, _, _ => none
  | fuel + 1, n, s =>
    if !s.in_file.eof then
      match Restore.iteration n s with
      | none => none
      | some (.done s1) => Restore.records fuel n s1
      | some (.threw what s1) => some (.threw what s1)
    else some (.done s)

/-- The state at the head of the record loop after `k` complete iterations from `s`;
`none` when the loop has ended, thrown or used up a budget before that. -/
def Restore.iterate (n : Nat) : Nat → RestoreState → Option RestoreState
  | 0, s => some s
  | k + 1, s =>
    if !s.in_file.eof then
      match Restore.iteration n s with
      | some (.done s1) => Restore.iterate n k s1
      | _ => none
    else none

/-- The final `while (!old_file.IsEof()) { ... }`. -/
def Restore.tail : Nat → RestoreState → Option RestoreState
  | 0, _ => none
  | fuel + 1, s =>
    if !s.old_file.IsEof then Restore.tail fuel (Restore.copyByte s) else some s

/-- The variables of `Restore` on entry: `offset = 0`, `old_offset = 0`, `type` empty,
`byte` indeterminate. -/
def Restore.enter (old_file : IfstreamHangler) (in_file : Ifstream)
    (new_file : OfstreamHangler) (byte : Int) : RestoreState :=
  { old_file, in_file, new_file, offset := 0, old_offset := 0, type := [], byte }

/-- `void Restore(IfstreamHangler& old_file, std::ifstream& in_file,`
`OfstreamHangler& new_file)`: the record loop, then the final copying loop.
`byte` is the indeterminate initial value of the local `int byte`; every loop has
the budget `fuel`. -/
def Restore (fuel : Nat) (old_file : IfstreamHangler) (in_file : Ifstream)
    (new_file : OfstreamHangler) (byte : Int) : Option Outcome :=
  match Restore.records fuel fuel (Restore.enter old_file in_file new_file byte) with
  | none => none
  | some (.threw what s) => some (.threw what s)
  | some (.done s) => (Restore.tail fuel s).map .done

/-- What `main` reports for an outcome of `Restore`: the message of the exception
caught, if any, and the content of the output file once the writer is destroyed
(at the end of the block, or while the exception unwinds). -/
def Outcome.report : Outcome → Option String × List Byte
  | .done s => (none, s.new_file.destroy)
  | .threw what s => (some what, s.new_file.destroy)

/-- The state an outcome carries. -/
def Outcome.state : Outcome → RestoreState
  | .done s => s
  | .threw _ s => s

/-- The restore mode of `main`: the original and the change list are opened, the
output file is created, `Restore` runs, and its outcome is reported. -/
def restoreFile (fuel : Nat) (O : List Byte) (text : List Char) (memO memOut : Nat → Byte)
    (byte : Int) : Option (Option String × List Byte) :=
  (Restore fuel (IfstreamHangler.create O memO) (Ifstream.create text)
      (OfstreamHangler.create memOut) byte).map Outcome.report

/-! ## Command-line arguments -/

/-- `enum class Mode { Diff, Restore };` -/
inductive Mode where
  | Diff
  | Restore
  deriving DecidableEq

/-- `bool is_option(const char* line)`: `strlen(line) != 0 && line[0] == '-'`. -/
def is_option (line : List Char) : Bool :=
  line.length != 0 && line.head? == some '-'

/-- `Mode parse_option(const char* line)`: `--diff`, `--restore`, or
`throw std::runtime_error("Wrong option " + line)`. -/
def parse_option (line : List Char) : Except String Mode :=
  if line = "--diff".toList then .ok Mode.Diff
  else if line = "--restore".toList then .ok Mode.Restore
  else .error ("Wrong option " ++ String.mk line)

/-- The fields of `class Arguments`. -/
structure Arguments where
  mode_ : Mode
  old_nm_ : List Char
  new_nm_ : List Char
  out_nm_ : List Char

/-- `mode_ = is_option(argv[argi]) ? parse_option(argv[argi++]) : Mode::Diff;`:
the mode and the new value of `argi`, or the exception of `parse_option`. -/
def Arguments.readMode (argv : List (List Char)) (argi : Nat) : Except String (Mode × Nat) :=
  if is_option (argv.getD argi []) then
    (parse_option (argv.getD argi [])).map fun m => (m, argi + 1)
  else .ok (Mode.Diff, argi)

/-- The rest of the constructor once the mode is read: the test
`argi + 1 >= argc`, then `old_nm_ = argv[argi++]; new_nm_ = argv[argi++];`
`out_nm_ = argi < argc ? argv[argi] : "a.out";`. -/
def Arguments.readNames (argv : List (List Char)) (mode_ : Mode) (argi : Nat) :
    Except String Arguments :=
  if argv.length ≤ argi + 1 then .error "Too few arguments"
  else
    .ok { mode_
          old_nm_ := argv.getD argi []
          new_nm_ := argv.getD (argi + 1) []
          out_nm_ := if argi + 2 < argv.length then argv.getD (argi + 2) [] else "a.out".toList }

/-- `Arguments(int argc, char** argv)`, with `argc` the length of `argv` (the program
name included): `argi = 1`, the test `argi >= argc`, the mode, the names. An
exception is an `error` carrying its message. -/
def Arguments.create (argv : List (List Char)) : Except String Arguments :=
  if argv.length ≤ 1 then .error "No arguments"
  else
    match Arguments.readMode argv 1 with
    | .error e => .error e
    | .ok (mode_, argi) => Arguments.readNames argv mode_ argi

/-- The arguments after the program name. -/
def givenArgs (argv : List (List Char)) : List (List Char) :=
  argv.drop 1

/-- An argument begins with `-`. -/
def beginsWithDash (a : List Char) : Prop :=
  a.head? = some '-'

instance (a : List Char) : Decidable (beginsWithDash a) :=
  inferInstanceAs (Decidable (a.head? = some '-'))

/-- The positional arguments: those that follow the optional flag, the flag being a
first argument that begins with `-`. -/
def positionalArgs (argv : List (List Char)) : List (List Char) :=
  match givenArgs argv with
  | [] => []
  | a :: rest => if beginsWithDash a then rest else a :: rest

/-! ## The change list as the specification describes it -/

/-- A change record of the data model. -/
inductive ChangeRecord where
  | Change (offset : Nat) (old_byte new_byte : Byte)
  | Delete (offset : Nat)
  | Insert (offset : Nat)
  deriving DecidableEq

/-- The offset of a record. -/
def ChangeRecord.offset : ChangeRecord → Nat
  | .Change i _ _ => i
  | .Delete i => i
  | .Insert i => i

/-- The kind tag of a record. -/
def ChangeRecord.kind : ChangeRecord → Char
  | .Change _ _ _ => 'c'
  | .Delete _ => 'd'
  | .Insert _ => 'i'

/-- The text line of a record: `<offset> c <old> <new>`, `<offset> d` or `<offset> i`,
numbers in decimal, ended by a newline. -/
def ChangeRecord.line : ChangeRecord → List Char
  | .Change i a b =>
    decimal i ++ [' ', 'c', ' '] ++ decimal a.val ++ [' '] ++ decimal b.val ++ ['\n']
  | .Delete i => decimal i ++ [' ', 'd', '\n']
  | .Insert i => decimal i ++ [' ', 'i', '\n']

/-- The `Change` record of offset `i`, when both files have a byte there and the two
bytes differ. -/
def changeAt (O N : List Byte) (i : Nat) : Option ChangeRecord :=
  match O[i]?, N[i]? with
  | some a, some b => if a ≠ b then some (.Change i a b) else none
  | _, _ => none

/-- Reference, part (1): for each offset `i < min(|O|,|N|)` with `O[i] != N[i]`, in
increasing `i`, the record `Change i O[i] N[i]`. -/
def specChanges (O N : List Byte) : List ChangeRecord :=
  (List.range (min O.length N.length)).filterMap (changeAt O N)

/-- Reference, part (2): for each `i` from `min(|O|,|N|)` up to `|O| - 1`, in
increasing order, the record `Delete i`. -/
def specDeletes (O N : List Byte) : List ChangeRecord :=
  (List.range' (min O.length N.length) (O.length - min O.length N.length)).map .Delete

/-- Reference record sequence: the changes, then the deletions. -/
def specRecords (O N : List Byte) : List ChangeRecord :=
  specChanges O N ++ specDeletes O N

/-- Reference change-list text: the lines of the reference records, nothing else. -/
def DiffSpec (O N : List Byte) : List Char :=
  (specRecords O N).flatMap ChangeRecord.line

/-! ## Reading a change list back as lines -/

/-- The lines of a text, split at newline characters (a final newline ends the last
line and opens no new one). -/
def textLines : List Char → List (List Char)
  | [] => []
  | c :: cs =>
    if c = '\n' then [] :: textLines cs
    else
      match textLines cs with
      | [] => [[c]]
      | l :: ls => (c :: l) :: ls

/-- The offset field of a line: the value of its leading decimal digits. -/
def lineOffset (l : List Char) : Nat :=
  digitsValue (l.takeWhile Char.isDigit)

/-- The offsets of the records of a change-list text, in file order. -/
def recordOffsets (text : List Char) : List Nat :=
  (textLines text).map lineOffset

/-- The kind tags `Restore` recognises. -/
def knownTags : List (List Char) :=
  [['c'], ['d'], ['i']]

/-- The first field of a change list is there but is no number: after the leading
whitespace some character is left, and no decimal digit follows the optional sign. -/
def firstFieldMalformed (text : List Char) : Prop :=
  text.dropWhile isspace ≠ [] ∧ (scanNumber (text.dropWhile isspace)).digits = []

instance (text : List Char) : Decidable (firstFieldMalformed text) :=
  inferInstanceAs
    (Decidable (text.dropWhile isspace ≠ [] ∧ (scanNumber (text.dropWhile isspace)).digits = []))

/-! ## Sequences of calls on the buffered reader and writer -/

/-- The reader after `j` calls of `GetByte`. -/
def IfstreamHangler.advance : Nat → IfstreamHangler → IfstreamHangler
  | 0, h => h
  | j + 1, h => IfstreamHangler.advance j h.GetByte.2

/-- The reader has bytes left: fewer bytes were handed out than the file holds. -/
def IfstreamHangler.hasMore (h : IfstreamHangler) : Bool :=
  decide (h.done_ < h.sz_)

/-- The writer after `PutByte` has been called with each byte of `bs` in order. -/
def OfstreamHangler.putAll (h : OfstreamHangler) (bs : List Byte) : OfstreamHangler :=
  bs.foldl OfstreamHangler.PutByte h

/-- Audit of the first loop of `Diff`: every execution of its body, within the
budget, calls `GetByte` on two readers that both have bytes left. -/
def Diff.audit1 : Nat → DiffState → Bool
  | 0, _ => true
  | fuel + 1, s =>
    if !s.old_file.IsEof && !s.new_file.IsEof then
      s.old_file.hasMore && s.new_file.hasMore && Diff.audit1 fuel (Diff.body1 s)
    else true

/-- Audit of the second loop of `Diff`: every execution of its body calls `GetByte`
on an old reader that has bytes left. -/
def Diff.audit2 : Nat → DiffState → Bool
  | 0, _ => true
  | fuel + 1, s =>
    if !s.old_file.IsEof then s.old_file.hasMore && Diff.audit2 fuel (Diff.body2 s)
    else true

/-- Audit of the third loop of `Diff`: every execution of its body calls `GetByte`
on a new reader that has bytes left. -/
def Diff.audit3 : Nat → DiffState → Bool
  | 0, _ => true
  | fuel + 1, s =>
    if !s.old_file.IsEof then s.new_file.hasMore && Diff.audit3 fuel (Diff.body3 s)
    else true

/-- The number of times the body of the third loop of `Diff` runs within the budget. -/
def Diff.count3 : Nat → DiffState → Nat
  | 0, _ => 0
  | fuel + 1, s =>
    if !s.old_file.IsEof then Diff.count3 fuel (Diff.body3 s) + 1 else 0

/-- The kind field of a line: the character after the leading digits and one
separator. -/
def lineKind (l : List Char) : Option Char :=
  ((l.dropWhile Char.isDigit).drop 1).head?

/-- The records of a change-list text read back line by line: offset and kind. -/
def recordsRead (text : List Char) : List (Nat × Option Char) :=
  (textLines text).map fun l => (lineOffset l, lineKind l)

/-! ## Invariants -/

/-- Reader `h` is a well-formed reader of the file `F` with exactly `k` bytes
consumed: no counter has wrapped, the stream has not failed, and every buffer
slot not yet handed out holds the file byte that `GetByte` will return from it. -/
structure IfstreamHangler.ReadsAt (h : IfstreamHangler) (F : List Byte) (k : Nat) : Prop where
  stream : h.stream_ = F
  fail : h.fail_ = false
  sz : h.sz_ = F.length
  small : F.length < SIZE_MOD
  done : h.done_ = k
  le : k ≤ F.length
  ind : h.ind_ ≤ BUFFER_SIZE
  buf : ∀ j, h.ind_ ≤ j → j < BUFFER_SIZE → k + (j - h.ind_) < F.length →
    F[k + (j - h.ind_)]? = some (h.buf_ j)

/-! ## The buffered reader hands out the file in order -/

theorem IfstreamHangler.create_readsAt (F : List Byte) (mem : Nat → Byte)
    (hF : F.length < SIZE_MOD) : (IfstreamHangler.create F mem).ReadsAt F 0 where
  stream := rfl
  fail := rfl
  sz := by simp [IfstreamHangler.create, Nat.mod_eq_of_lt hF]
  small := hF
  done := rfl
  le := Nat.zero_le _
  ind := Nat.le_refl _
  buf := by
    intro j h1 h2
    simp only [IfstreamHangler.create] at h1
    omega

theorem IfstreamHangler.ReadsAt.isEof_iff {h : IfstreamHangler} {F : List Byte} {k : Nat}
    (inv : h.ReadsAt F k) : h.IsEof = true ↔ k = F.length := by
  simp [IfstreamHangler.IsEof, inv.done, inv.sz]

theorem IfstreamHangler.ReadsAt.ready {h : IfstreamHangler} {F : List Byte} {k : Nat}
    (inv : h.ReadsAt F k) (hk : k < F.length) :
    h.ready.ReadsAt F k ∧ h.ready.ind_ < BUFFER_SIZE := by
  unfold IfstreamHangler.ready
  by_cases hi : h.ind_ = BUFFER_SIZE
  · have hsm := inv.small
    have hn : (h.sz_ + SIZE_MOD - h.done_) % SIZE_MOD = F.length - k := by
      rw [inv.sz, inv.done]
      have : F.length + SIZE_MOD - k = (F.length - k) + SIZE_MOD := by omega
      rw [this, Nat.add_mod_right, Nat.mod_eq_of_lt (by omega)]
    have hlen : (List.take (min (F.length - k) BUFFER_SIZE) (List.drop k F)).length
        = min (F.length - k) BUFFER_SIZE := by
      simp [List.length_take, List.length_drop]
    simp only [hi, beq_self_eq_true, if_true, IfstreamHangler.refill, inv.fail, hn,
      Bool.false_eq_true, if_false, inv.stream]
    rw [inv.done, hlen]
    refine ⟨⟨rfl, by simp, inv.sz, inv.small, rfl, inv.le, Nat.zero_le _, ?_⟩, by decide⟩
    intro j _ hj hlt
    simp only [Nat.sub_zero] at hlt ⊢
    simp only [List.getD_eq_getElem?_getD, List.getElem?_take, List.getElem?_drop]
    have : j < min (F.length - k) BUFFER_SIZE := by
      simp only [lt_min_iff]; omega
    rw [if_pos this]
    have hsome : F[k + j]? = some (F[k + j]) := List.getElem?_eq_getElem hlt
    rw [hsome]; rfl
  · have hne : (h.ind_ == BUFFER_SIZE) = false := by simpa using hi
    simp only [hne, Bool.false_eq_true, if_false]
    exact ⟨inv, lt_of_le_of_ne inv.ind hi⟩

theorem IfstreamHangler.ReadsAt.getByte {h : IfstreamHangler} {F : List Byte} {k : Nat}
    (inv : h.ReadsAt F k) (hk : k < F.length) :
    F[k]? = some h.GetByte.1 ∧ h.GetByte.2.ReadsAt F (k + 1) := by
  obtain ⟨r, hr⟩ := inv.ready hk
  have hsm := r.small
  constructor
  · have := r.buf h.ready.ind_ (Nat.le_refl _) hr (by simpa using hk)
    simpa [IfstreamHangler.GetByte] using this
  · refine ⟨r.stream, r.fail, r.sz, r.small, ?_, hk, ?_, ?_⟩
    · simp only [IfstreamHangler.GetByte, r.done]
      exact Nat.mod_eq_of_lt (by omega)
    · simp only [IfstreamHangler.GetByte]; omega
    · intro j h1 h2 h3
      simp only [IfstreamHangler.GetByte] at h1 h3 ⊢
      have e : k + 1 + (j - (h.ready.ind_ + 1)) = k + (j - h.ready.ind_) := by omega
      rw [e] at h3 ⊢
      exact r.buf j (by omega) h2 h3


theorem Diff.loop1_run (O N : List Byte) :
    ∀ (n k fuel : Nat) (s : DiffState),
      s.old_file.ReadsAt O k → s.new_file.ReadsAt N k → s.offset = k →
      k + n = min O.length N.length → n < fuel →
      ∃ s', Diff.loop1 fuel s = some s' ∧ s'.old_file.ReadsAt O (k + n) ∧
        s'.new_file.ReadsAt N (k + n) ∧ s'.offset = k + n ∧
        s'.out_file = s.out_file ++
          ((List.range' k n).filterMap (changeAt O N)).flatMap ChangeRecord.line := by
  intro n
  induction n with
  | zero =>
    intro k fuel s ho hn hoff hk hfuel
    obtain ⟨f, rfl⟩ : ∃ f, fuel = f + 1 := ⟨fuel - 1, by omega⟩
    have hc : (!s.old_file.IsEof && !s.new_file.IsEof) = false := by
      have h1 := ho.isEof_iff
      have h2 := hn.isEof_iff
      rcases Nat.lt_or_ge O.length N.length with hlt | hge
      · have : s.old_file.IsEof = true := h1.2 (by omega)
        simp [this]
      · have : s.new_file.IsEof = true := h2.2 (by omega)
        simp [this]
    refine ⟨s, ?_, ho, hn, hoff, ?_⟩
    · simp [Diff.loop1, hc]
    · simp
  | succ n ih =>
    intro k fuel s ho hn hoff hk hfuel
    obtain ⟨f, rfl⟩ : ∃ f, fuel = f + 1 := ⟨fuel - 1, by omega⟩
    have hkO : k < O.length := by omega
    have hkN : k < N.length := by omega
    have hc : (!s.old_file.IsEof && !s.new_file.IsEof) = true := by
      have h1 : s.old_file.IsEof = false := by
        rw [← Bool.not_eq_true, ho.isEof_iff]; omega
      have h2 : s.new_file.IsEof = false := by
        rw [← Bool.not_eq_true, hn.isEof_iff]; omega
      simp [h1, h2]
    obtain ⟨hbo, ho'⟩ := ho.getByte hkO
    obtain ⟨hbn, hn'⟩ := hn.getByte hkN
    have hsm := ho.small
    have hoff' : (Diff.body1 s).offset = k + 1 := by
      simp only [Diff.body1, hoff]
      exact Nat.mod_eq_of_lt (by omega)
    obtain ⟨s', hrun, r1, r2, r3, r4⟩ :=
      ih (k + 1) f (Diff.body1 s) ho' hn' hoff' (by omega) (by omega)
    refine ⟨s', ?_, ?_, ?_, ?_, ?_⟩
    · simp only [Diff.loop1, hc, if_true]; exact hrun
    · rwa [Nat.add_assoc, Nat.add_comm 1 n] at r1
    · rwa [Nat.add_assoc, Nat.add_comm 1 n] at r2
    · omega
    · rw [r4, List.range'_succ, List.filterMap_cons]
      simp only [changeAt, hbo, hbn, Diff.body1, hoff]
      by_cases hne : s.old_file.GetByte.1 = s.new_file.GetByte.1
      · simp [hne]
      · simp [hne, ChangeRecord.line]


theorem Diff.loop2_run (O : List Byte) :
    ∀ (n k fuel : Nat) (s : DiffState),
      s.old_file.ReadsAt O k → s.offset = k → k + n = O.length → n < fuel →
      ∃ s', Diff.loop2 fuel s = some s' ∧ s'.old_file.ReadsAt O (k + n) ∧
        s'.new_file = s.new_file ∧ s'.offset = k + n ∧
        s'.out_file = s.out_file ++
          ((List.range' k n).map ChangeRecord.Delete).flatMap ChangeRecord.line := by
  intro n
  induction n with
  | zero =>
    intro k fuel s ho hoff hk hfuel
    obtain ⟨f, rfl⟩ : ∃ f, fuel = f + 1 := ⟨fuel - 1, by omega⟩
    have hc : s.old_file.IsEof = true := ho.isEof_iff.2 (by omega)
    exact ⟨s, by simp [Diff.loop2, hc], ho, rfl, hoff, by simp⟩
  | succ n ih =>
    intro k fuel s ho hoff hk hfuel
    obtain ⟨f, rfl⟩ : ∃ f, fuel = f + 1 := ⟨fuel - 1, by omega⟩
    have hkO : k < O.length := by omega
    have hc : s.old_file.IsEof = false := by
      rw [← Bool.not_eq_true, ho.isEof_iff]; omega
    obtain ⟨-, ho'⟩ := ho.getByte hkO
    have hsm := ho.small
    have hoff' : (Diff.body2 s).offset = k + 1 := by
      simp only [Diff.body2, hoff]
      exact Nat.mod_eq_of_lt (by omega)
    obtain ⟨s', hrun, r1, r2, r3, r4⟩ :=
      ih (k + 1) f (Diff.body2 s) ho' hoff' (by omega) (by omega)
    refine ⟨s', ?_, ?_, ?_, ?_, ?_⟩
    · simp only [Diff.loop2, hc, Bool.not_false, if_true]; exact hrun
    · rwa [Nat.add_assoc, Nat.add_comm 1 n] at r1
    · rw [r2]; rfl
    · omega
    · rw [r4, List.range'_succ]
      simp [Diff.body2, hoff, ChangeRecord.line]

theorem Diff.loop3_run (O : List Byte) (fuel : Nat) (s : DiffState)
    (ho : s.old_file.ReadsAt O O.length) : Diff.loop3 (fuel + 1) s = some s := by
  have hc : s.old_file.IsEof = true := ho.isEof_iff.2 rfl
  simp [Diff.loop3, hc]

/-- With more iterations allowed than the old file has bytes, `Diff` returns: it has
appended the reference change list to the output, the old file is read to its end
and the new file up to the shorter of the two lengths. -/
theorem Diff_run (O N : List Byte) (memO memN : Nat → Byte) (out : List Char) (fuel : Nat)
    (hO : O.length < SIZE_MOD) (hN : N.length < SIZE_MOD) (hfuel : O.length < fuel) :
    ∃ s, Diff fuel (IfstreamHangler.create O memO) (IfstreamHangler.create N memN) out = some s ∧
      s.out_file = out ++ DiffSpec O N ∧
      s.old_file.ReadsAt O O.length ∧
      s.new_file.ReadsAt N (min O.length N.length) ∧
      s.offset = O.length := by
  obtain ⟨s1, e1, o1, n1, f1, t1⟩ :=
    Diff.loop1_run O N (min O.length N.length) 0 fuel
      { old_file := IfstreamHangler.create O memO, new_file := IfstreamHangler.create N memN,
        out_file := out, offset := 0 }
      (IfstreamHangler.create_readsAt O memO hO) (IfstreamHangler.create_readsAt N memN hN)
      rfl (by omega) (by omega)
  rw [Nat.zero_add] at o1 n1 f1
  obtain ⟨s2, e2, o2, n2, f2, t2⟩ :=
    Diff.loop2_run O (O.length - min O.length N.length) (min O.length N.length) fuel s1
      o1 f1 (by omega) (by omega)
  have hlen : min O.length N.length + (O.length - min O.length N.length) = O.length := by omega
  rw [hlen] at o2 f2
  obtain ⟨f, rfl⟩ : ∃ f, fuel = f + 1 := ⟨fuel - 1, by omega⟩
  refine ⟨s2, ?_, ?_, o2, ?_, f2⟩
  · unfold Diff
    rw [e1, Option.bind, e2]
    exact Diff.loop3_run O f s2 o2
  · rw [t2, t1]
    simp [DiffSpec, specRecords, specChanges, specDeletes, List.range_eq_range',
      List.flatMap_append]
  · rw [n2]; exact n1

/-! ## Decimal text -/

theorem digitChar_isDigit : ∀ d, d < 10 → (Nat.digitChar d).isDigit = true := by
  decide

theorem digitChar_value : ∀ d, d < 10 → (Nat.digitChar d).toNat - 48 = d := by
  decide

theorem toDigitsCore_isDigit :
    ∀ (fuel n : Nat) (ds : List Char), (∀ c ∈ ds, c.isDigit = true) →
      ∀ c ∈ Nat.toDigitsCore 10 fuel n ds, c.isDigit = true := by
  intro fuel
  induction fuel with
  | zero => intro n ds h c hc; exact h c (by simpa [Nat.toDigitsCore] using hc)
  | succ fuel ih =>
    intro n ds h c hc
    have hd : (Nat.digitChar (n % 10)).isDigit = true :=
      digitChar_isDigit _ (Nat.mod_lt _ (by decide))
    have hds : ∀ c ∈ Nat.digitChar (n % 10) :: ds, c.isDigit = true := by
      intro c hc
      rcases List.mem_cons.1 hc with rfl | hc
      · exact hd
      · exact h c hc
    simp only [Nat.toDigitsCore] at hc
    split at hc
    · exact hds c hc
    · exact ih _ _ hds c hc

theorem decimal_isDigit {n : Nat} {c : Char} (hc : c ∈ decimal n) : c.isDigit = true :=
  toDigitsCore_isDigit _ _ [] (by simp) c hc

theorem digitsValue_toDigitsCore :
    ∀ (fuel n : Nat) (ds : List Char), n < fuel →
      digitsValue (Nat.toDigitsCore 10 fuel n ds)
        = ds.foldl (fun a c => 10 * a + (c.toNat - 48)) n := by
  intro fuel
  induction fuel with
  | zero => intro n ds h; omega
  | succ fuel ih =>
    intro n ds h
    have hv := digitChar_value (n % 10) (Nat.mod_lt _ (by decide))
    simp only [Nat.toDigitsCore]
    split
    · rename_i h0
      simp only [digitsValue, List.foldl_cons, hv]
      congr 1; omega
    · rename_i h0
      have := ih (n / 10) (Nat.digitChar (n % 10) :: ds) (by omega)
      rw [this, List.foldl_cons, hv]
      congr 1; omega

theorem digitsValue_decimal (n : Nat) : digitsValue (decimal n) = n := by
  simpa using digitsValue_toDigitsCore (n + 1) n [] (Nat.lt_succ_self n)

theorem takeWhile_append_stop {α : Type} (p : α → Bool) (l r : List α) (x : α)
    (hl : ∀ c ∈ l, p c = true) (hx : p x = false) :
    (l ++ x :: r).takeWhile p = l := by
  induction l with
  | nil => simp [List.takeWhile, hx]
  | cons a l ih =>
    have ha := hl a (List.mem_cons_self _ _)
    simp only [List.cons_append, List.takeWhile_cons, ha, if_true]
    rw [ih (fun c hc => hl c (List.mem_cons_of_mem _ hc))]

theorem lineOffset_decimal (n : Nat) (r : List Char) :
    lineOffset (decimal n ++ ' ' :: r) = n := by
  unfold lineOffset
  rw [takeWhile_append_stop Char.isDigit _ _ _ (fun c hc => decimal_isDigit hc) (by decide)]
  exact digitsValue_decimal n

/-! ## Lines of a change list -/

theorem textLines_append_newline (l rest : List Char) (hl : ∀ c ∈ l, c ≠ '\n') :
    textLines (l ++ '\n' :: rest) = l :: textLines rest := by
  induction l with
  | nil => simp [textLines]
  | cons a l ih =>
    have ha : a ≠ '\n' := hl a (List.mem_cons_self _ _)
    have := ih (fun c hc => hl c (List.mem_cons_of_mem _ hc))
    rw [List.cons_append, textLines, if_neg ha, this]

/-- The line of a record without its final newline. -/
theorem ChangeRecord.line_eq (r : ChangeRecord) :
    ∃ b, r.line = (decimal r.offset ++ ' ' :: b) ++ '\n' :: [] ∧
      (∀ c ∈ decimal r.offset ++ ' ' :: b, c ≠ '\n') ∧
      ((∀ i, r ≠ .Insert i) → ∀ c ∈ decimal r.offset ++ ' ' :: b, c ≠ 'i') := by
  have hd : ∀ (n : Nat) (c : Char), c ∈ decimal n → c ≠ '\n' ∧ c ≠ 'i' := by
    intro n c hc
    have := decimal_isDigit hc
    constructor <;> (rintro rfl; revert this; decide)
  cases r with
  | Change i a b =>
    refine ⟨'c' :: ' ' :: (decimal a.val ++ ' ' :: decimal b.val), ?_, ?_, ?_⟩
    · simp [ChangeRecord.line, ChangeRecord.offset]
    · intro c hc
      simp only [ChangeRecord.offset, List.mem_append, List.mem_cons] at hc
      rcases hc with h | rfl | rfl | rfl | h | rfl | h
      · exact (hd _ _ h).1
      · decide
      · decide
      · decide
      · exact (hd _ _ h).1
      · decide
      · exact (hd _ _ h).1
    · intro _ c hc
      simp only [ChangeRecord.offset, List.mem_append, List.mem_cons] at hc
      rcases hc with h | rfl | rfl | rfl | h | rfl | h
      · exact (hd _ _ h).2
      · decide
      · decide
      · decide
      · exact (hd _ _ h).2
      · decide
      · exact (hd _ _ h).2
  | Delete i =>
    refine ⟨['d'], ?_, ?_, ?_⟩
    · simp [ChangeRecord.line, ChangeRecord.offset]
    · intro c hc
      simp only [ChangeRecord.offset, List.mem_append, List.mem_cons, List.mem_singleton,
        List.not_mem_nil, or_false] at hc
      rcases hc with h | rfl | rfl
      · exact (hd _ _ h).1
      · decide
      · decide
    · intro _ c hc
      simp only [ChangeRecord.offset, List.mem_append, List.mem_cons, List.mem_singleton,
        List.not_mem_nil, or_false] at hc
      rcases hc with h | rfl | rfl
      · exact (hd _ _ h).2
      · decide
      · decide
  | Insert i =>
    refine ⟨['i'], ?_, ?_, ?_⟩
    · simp [ChangeRecord.line, ChangeRecord.offset]
    · intro c hc
      simp only [ChangeRecord.offset, List.mem_append, List.mem_cons, List.mem_singleton,
        List.not_mem_nil, or_false] at hc
      rcases hc with h | rfl | rfl
      · exact (hd _ _ h).1
      · decide
      · decide
    · intro h; exact absurd rfl (h i)

theorem recordOffsets_lines (rs : List ChangeRecord) :
    recordOffsets (rs.flatMap ChangeRecord.line) = rs.map ChangeRecord.offset := by
  induction rs with
  | nil => rfl
  | cons r rs ih =>
    obtain ⟨b, hb, hnl, -⟩ := r.line_eq
    unfold recordOffsets at ih ⊢
    rw [List.flatMap_cons, hb, List.append_assoc, List.singleton_append,
      textLines_append_newline _ _ hnl, List.map_cons, ih, List.map_cons, lineOffset_decimal]

theorem lines_no_insert (rs : List ChangeRecord) (h : ∀ r ∈ rs, ∀ i, r ≠ .Insert i) :
    'i' ∉ rs.flatMap ChangeRecord.line := by
  intro hmem
  obtain ⟨r, hr, hc⟩ := List.mem_flatMap.1 hmem
  obtain ⟨b, hb, -, hni⟩ := r.line_eq
  rw [hb] at hc
  rcases List.mem_append.1 hc with hc | hc
  · exact hni (h r hr) _ hc rfl
  · revert hc; decide

/-! ## The reference record sequence -/

theorem changeAt_some {O N : List Byte} {i : Nat} {r : ChangeRecord}
    (h : changeAt O N i = some r) :
    ∃ a b, r = .Change i a b ∧ O[i]? = some a ∧ N[i]? = some b ∧ a ≠ b := by
  unfold changeAt at h
  split at h
  · rename_i a b ha hb
    split at h
    · rename_i hne
      exact ⟨a, b, (Option.some.inj h).symm, ha, hb, hne⟩
    · exact absurd h (by simp)
  · exact absurd h (by simp)

theorem changes_offsets_sublist (O N : List Byte) (l : List Nat) :
    List.Sublist ((l.filterMap (changeAt O N)).map ChangeRecord.offset) l := by
  induction l with
  | nil => simp
  | cons i l ih =>
    rw [List.filterMap_cons]
    split
    · exact ih.cons _
    · rename_i r hr
      obtain ⟨a, b, rfl, -⟩ := changeAt_some hr
      simpa [ChangeRecord.offset] using ih

theorem specRecords_offsets_sublist (O N : List Byte) :
    List.Sublist ((specRecords O N).map ChangeRecord.offset) (List.range O.length) := by
  have h1 := changes_offsets_sublist O N (List.range (min O.length N.length))
  have h2 : (specDeletes O N).map ChangeRecord.offset
      = List.range' (min O.length N.length) (O.length - min O.length N.length) := by
    simp [specDeletes, List.map_map, Function.comp_def, ChangeRecord.offset]
  have h3 : List.range O.length = List.range (min O.length N.length)
      ++ List.range' (min O.length N.length) (O.length - min O.length N.length) := by
    rw [List.range_eq_range', List.range_eq_range']
    have := List.range'_append 0 (min O.length N.length) (O.length - min O.length N.length) 1
    simp only [Nat.zero_add, Nat.one_mul] at this
    rw [this]
    congr 1; omega
  unfold specRecords specChanges
  rw [List.map_append, h2, h3]
  exact h1.append (List.Sublist.refl _)

theorem specRecords_offsets_lt (O N : List Byte) :
    ((specRecords O N).map ChangeRecord.offset).Pairwise (· < ·) := by
  refine List.Pairwise.sublist (specRecords_offsets_sublist O N) ?_
  rw [List.range_eq_range']
  exact List.pairwise_lt_range' 0 O.length

theorem specRecords_no_insert (O N : List Byte) :
    ∀ r ∈ specRecords O N, ∀ i, r ≠ .Insert i := by
  intro r hr i
  rcases List.mem_append.1 hr with h | h
  · obtain ⟨j, -, hj⟩ := List.mem_filterMap.1 h
    obtain ⟨a, b, rfl, -⟩ := changeAt_some hj
    simp
  · obtain ⟨j, -, rfl⟩ := List.mem_map.1 h
    simp

theorem specChanges_self (O : List Byte) : specChanges O O = [] := by
  unfold specChanges
  rw [List.filterMap_eq_nil_iff]
  intro i _
  unfold changeAt
  split
  · rename_i a b ha hb
    have : a = b := Option.some.inj (ha.symm.trans hb)
    simp [this]
  · rfl

theorem DiffSpec_self (O : List Byte) : DiffSpec O O = [] := by
  simp [DiffSpec, specRecords, specChanges_self, specDeletes]

theorem DiffSpec_take (O N : List Byte) (h : O.length < N.length) :
    DiffSpec O (N.take O.length) = DiffSpec O N := by
  have hm : min O.length (N.take O.length).length = min O.length N.length := by
    simp only [List.length_take]; omega
  have hm' : min O.length N.length = O.length := by omega
  unfold DiffSpec specRecords specChanges specDeletes
  rw [hm]
  congr 2
  apply List.filterMap_congr
  intro i hi
  have hi' : i < O.length := by
    have := List.mem_range.1 hi; omega
  unfold changeAt
  simp only [List.getElem?_take, if_pos hi']

/-! ## The buffered writer -/

theorem OfstreamHangler.destroy_eq (h : OfstreamHangler) : h.destroy = h.write h.ind_ := by
  unfold OfstreamHangler.destroy
  by_cases h0 : h.ind_ = 0
  · simp [h0, OfstreamHangler.write]
  · simp [h0]

theorem OfstreamHangler.write_ready (h : OfstreamHangler) :
    h.ready.write h.ready.ind_ = h.write h.ind_ := by
  unfold OfstreamHangler.ready
  by_cases hi : h.ind_ = BUFFER_SIZE
  · simp [hi, OfstreamHangler.write]
  · have : (h.ind_ == BUFFER_SIZE) = false := by simpa using hi
    simp [this]

/-- `PutByte` adds exactly its byte at the end of what the writer will have written
once destroyed. -/
theorem OfstreamHangler.destroy_PutByte (h : OfstreamHangler) (b : Byte) :
    (h.PutByte b).destroy = h.destroy ++ [b] := by
  rw [OfstreamHangler.destroy_eq, OfstreamHangler.destroy_eq, ← OfstreamHangler.write_ready h]
  simp only [OfstreamHangler.PutByte, OfstreamHangler.write, List.range_succ, List.map_append,
    List.map_cons, List.map_nil, if_true, List.append_assoc]
  congr 2
  apply List.map_congr_left
  intro i hi
  have : i ≠ h.ready.ind_ := Nat.ne_of_lt (List.mem_range.1 hi)
  simp [this]

/-! ## Budgets: a loop that returns keeps its result under a larger budget -/

theorem Restore.copyForward_mono :
    ∀ (n : Nat) (s s' : RestoreState), Restore.copyForward n s = some s' →
      ∀ m, n ≤ m → Restore.copyForward m s = some s' := by
  intro n
  induction n with
  | zero => intro s s' h; simp [Restore.copyForward] at h
  | succ n ih =>
    intro s s' h m hm
    obtain ⟨m, rfl⟩ : ∃ m', m = m' + 1 := ⟨m - 1, by omega⟩
    simp only [Restore.copyForward] at h ⊢
    split
    · rename_i hc
      rw [if_pos hc] at h
      exact ih _ _ h m (by omega)
    · rename_i hc
      rw [if_neg hc] at h
      exact h

theorem Restore.tail_mono :
    ∀ (n : Nat) (s s' : RestoreState), Restore.tail n s = some s' →
      ∀ m, n ≤ m → Restore.tail m s = some s' := by
  intro n
  induction n with
  | zero => intro s s' h; simp [Restore.tail] at h
  | succ n ih =>
    intro s s' h m hm
    obtain ⟨m, rfl⟩ : ∃ m', m = m' + 1 := ⟨m - 1, by omega⟩
    simp only [Restore.tail] at h ⊢
    split
    · rename_i hc
      rw [if_pos hc] at h
      exact ih _ _ h m (by omega)
    · rename_i hc
      rw [if_neg hc] at h
      exact h

theorem Restore.iteration_mono {n m : Nat} {s : RestoreState} {r : Outcome}
    (h : Restore.iteration n s = some r) (hm : n ≤ m) : Restore.iteration m s = some r := by
  unfold Restore.iteration at h ⊢
  obtain ⟨s1, h1, rfl⟩ := Option.map_eq_some'.1 h
  rw [Restore.copyForward_mono n _ _ h1 m hm]
  rfl

theorem Restore.records_mono :
    ∀ (f n : Nat) (s : RestoreState) (r : Outcome), Restore.records f n s = some r →
      ∀ f' n', f ≤ f' → n ≤ n' → Restore.records f' n' s = some r := by
  intro f
  induction f with
  | zero => intro n s r h; simp [Restore.records] at h
  | succ f ih =>
    intro n s r h f' n' hf hn
    obtain ⟨f', rfl⟩ : ∃ g, f' = g + 1 := ⟨f' - 1, by omega⟩
    simp only [Restore.records] at h ⊢
    split
    · rename_i hc
      rw [if_pos hc] at h
      cases hit : Restore.iteration n s with
      | none => rw [hit] at h; simp at h
      | some o =>
        rw [hit] at h
        rw [Restore.iteration_mono hit hn]
        cases o with
        | done s1 => exact ih _ _ _ h f' n' (by omega) hn
        | threw w s1 => exact h
    · rename_i hc
      rw [if_neg hc] at h
      exact h

theorem Restore.iterate_mono :
    ∀ (k n : Nat) (s s' : RestoreState), Restore.iterate n k s = some s' →
      ∀ m, n ≤ m → Restore.iterate m k s = some s' := by
  intro k
  induction k with
  | zero => intro n s s' h m _; simpa [Restore.iterate] using h
  | succ k ih =>
    intro n s s' h m hm
    simp only [Restore.iterate] at h ⊢
    split
    · rename_i hc
      rw [if_pos hc] at h
      cases hit : Restore.iteration n s with
      | none => rw [hit] at h; simp at h
      | some o =>
        rw [hit] at h
        rw [Restore.iteration_mono hit hm]
        cases o with
        | done s1 => exact ih _ _ _ h m hm
        | threw w s1 => simp at h
    · rename_i hc
      rw [if_neg hc] at h
      simp at h

/-- After `k` complete iterations the record loop goes on from the state reached. -/
theorem Restore.records_iterate :
    ∀ (k n f : Nat) (s s' : RestoreState), Restore.iterate n k s = some s' →
      Restore.records (k + f) n s = Restore.records f n s' := by
  intro k
  induction k with
  | zero =>
    intro n f s s' h
    simp only [Restore.iterate, Option.some.injEq] at h
    rw [Nat.zero_add, h]
  | succ k ih =>
    intro n f s s' h
    simp only [Restore.iterate] at h
    have e : k + 1 + f = (k + f) + 1 := by omega
    rw [e]
    simp only [Restore.records]
    split
    · rename_i hc
      rw [if_pos hc] at h
      cases hit : Restore.iteration n s with
      | none => rw [hit] at h; simp at h
      | some o =>
        rw [hit] at h
        cases o with
        | done s1 => exact ih _ _ _ _ h
        | threw w s1 => simp at h
    · rename_i hc
      rw [if_neg hc] at h
      simp at h

/-! ## Extraction from a stream that is not good -/

theorem Ifstream.sentry_of_fail {s : Ifstream} (h : s.failbit = true) :
    s.sentry = (false, s) := by
  obtain ⟨r, e, f⟩ := s
  simp only at h
  subst h
  simp [Ifstream.sentry]

theorem Ifstream.extractSizeT_of_fail {s : Ifstream} (h : s.failbit = true) (v : Nat) :
    s.extractSizeT v = (v, s) := by
  simp [Ifstream.extractSizeT, Ifstream.sentry_of_fail h]

theorem Ifstream.extractInt_of_fail {s : Ifstream} (h : s.failbit = true) (v : Int) :
    s.extractInt v = (v, s) := by
  simp [Ifstream.extractInt, Ifstream.sentry_of_fail h]

theorem Ifstream.extractString_of_fail {s : Ifstream} (h : s.failbit = true) (v : List Char) :
    s.extractString v = (v, s) := by
  simp [Ifstream.extractString, Ifstream.sentry_of_fail h]

theorem Restore.readHeader_of_fail {s : RestoreState} (h : s.in_file.failbit = true) :
    Restore.readHeader s = s := by
  simp [Restore.readHeader, Ifstream.extractSizeT_of_fail h, Ifstream.extractString_of_fail h]

theorem Ifstream.extractSizeT_lt (s : Ifstream) (v : Nat) (hv : v < SIZE_MOD) :
    (s.extractSizeT v).1 < SIZE_MOD := by
  unfold Ifstream.extractSizeT
  split
  · simp only
    split
    · exact (by decide : (0 : Nat) < SIZE_MOD)
    · split
      · exact (by decide : SIZE_MOD - 1 < SIZE_MOD)
      · rename_i h1 h2
        simp only
        split
        · exact Nat.mod_lt _ (by decide)
        · omega
  · exact hv

/-! ## The copy-forward loop -/

theorem Restore.copyForward_keeps :
    ∀ (n : Nat) (s s' : RestoreState), Restore.copyForward n s = some s' →
      s'.in_file = s.in_file ∧ s'.type = s.type ∧ s'.offset = s.offset ∧ s'.byte = s.byte := by
  intro n
  induction n with
  | zero => intro s s' h; simp [Restore.copyForward] at h
  | succ n ih =>
    intro s s' h
    simp only [Restore.copyForward] at h
    split at h
    · simpa [Restore.copyByte] using ih _ _ h
    · cases h; exact ⟨rfl, rfl, rfl, rfl⟩

/-- The copy-forward loop ends within `offset - old_offset` iterations. -/
theorem Restore.copyForward_returns :
    ∀ (n : Nat) (s : RestoreState), s.offset < SIZE_MOD → s.offset - s.old_offset < n →
      ∃ s', Restore.copyForward n s = some s' := by
  intro n
  induction n with
  | zero => intro s _ h; omega
  | succ n ih =>
    intro s hM h
    simp only [Restore.copyForward]
    split
    · rename_i hc
      simp only [Bool.and_eq_true, decide_eq_true_eq] at hc
      apply ih
      · exact hM
      · have : (s.old_offset + 1) % SIZE_MOD = s.old_offset + 1 :=
          Nat.mod_eq_of_lt (by omega)
        simp only [Restore.copyByte, this]
        omega
    · exact ⟨s, rfl⟩

/-! ## A failed change-list stream that is not at its end -/

theorem Restore.dispatch_of_fail {s : RestoreState} (hf : s.in_file.failbit = true)
    (ht : s.type ∈ knownTags) :
    ∃ s', Restore.dispatch s = .done s' ∧ s'.in_file = s.in_file ∧ s'.type = s.type := by
  simp only [knownTags, List.mem_cons, List.mem_singleton, List.not_mem_nil, or_false] at ht
  unfold Restore.dispatch
  rcases ht with h | h | h
  · simp only [h, if_true, Ifstream.extractInt_of_fail hf]
    exact ⟨_, rfl, rfl, rfl⟩
  · have hc : ¬ (s.type = ['c']) := by rw [h]; decide
    simp only [if_neg hc, h, if_true]
    exact ⟨_, rfl, rfl, h⟩
  · have hc : ¬ (s.type = ['c']) := by rw [h]; decide
    have hd : ¬ (s.type = ['d']) := by rw [h]; decide
    simp only [if_neg hc, if_neg hd, h, if_true, Ifstream.extractInt_of_fail hf]
    exact ⟨_, rfl, rfl, rfl⟩

/-- Once the change-list stream has `failbit` without `eofbit` while the tag variable
holds `c`, `d` or `i`, the record loop never ends: every extraction leaves its
variable unchanged, the stale tag is dispatched again, and `eof()` stays false. -/
theorem Restore.records_stuck :
    ∀ (f n : Nat) (s : RestoreState), s.in_file.failbit = true → s.in_file.eofbit = false →
      s.type ∈ knownTags → Restore.records f n s = none := by
  intro f
  induction f with
  | zero => intro n s _ _ _; rfl
  | succ f ih =>
    intro n s hf he ht
    have hc : (!s.in_file.eof) = true := by simp [Ifstream.eof, he]
    simp only [Restore.records, hc, if_true]
    cases hit : Restore.iteration n s with
    | none => rfl
    | some o =>
      unfold Restore.iteration at hit
      rw [Restore.readHeader_of_fail hf] at hit
      obtain ⟨s1, h1, rfl⟩ := Option.map_eq_some'.1 hit
      obtain ⟨k1, k2, -, -⟩ := Restore.copyForward_keeps _ _ _ h1
      obtain ⟨s2, e2, i2, t2⟩ :=
        Restore.dispatch_of_fail (s := s1) (by rw [k1]; exact hf) (by rw [k2]; exact ht)
      rw [e2]
      exact ih n s2 (by rw [i2, k1]; exact hf) (by rw [i2, k1]; exact he)
        (by rw [t2, k2]; exact ht)

/-! ## The final copying loop only appends -/

theorem Restore.tail_appends :
    ∀ (n : Nat) (s s' : RestoreState), Restore.tail n s = some s' →
      ∃ t, s'.new_file.destroy = s.new_file.destroy ++ t := by
  intro n
  induction n with
  | zero => intro s s' h; simp [Restore.tail] at h
  | succ n ih =>
    intro s s' h
    simp only [Restore.tail] at h
    split at h
    · obtain ⟨t, ht⟩ := ih _ _ h
      refine ⟨s.old_file.GetByte.1 :: t, ?_⟩
      rw [ht]
      simp [Restore.copyByte, OfstreamHangler.destroy_PutByte]
    · cases h; exact ⟨[], by simp⟩

/-! ## Whole runs of `Restore` -/

theorem Restore_mono {f f' : Nat} {old_file : IfstreamHangler} {in_file : Ifstream}
    {new_file : OfstreamHangler} {byte : Int} {r : Outcome}
    (h : Restore f old_file in_file new_file byte = some r) (hf : f ≤ f') :
    Restore f' old_file in_file new_file byte = some r := by
  unfold Restore at h ⊢
  cases hrec : Restore.records f f (Restore.enter old_file in_file new_file byte) with
  | none => rw [hrec] at h; simp at h
  | some o =>
    rw [hrec] at h
    rw [Restore.records_mono _ _ _ _ hrec f' f' hf hf]
    cases o with
    | threw w s => exact h
    | done s =>
      simp only at h ⊢
      obtain ⟨s', hs', rfl⟩ := Option.map_eq_some'.1 h
      rw [Restore.tail_mono _ _ _ hs' f' hf]
      rfl

theorem restoreFile_mono {f f' : Nat} {O : List Byte} {text : List Char}
    {memO memOut : Nat → Byte} {byte : Int} {r : Option String × List Byte}
    (h : restoreFile f O text memO memOut byte = some r) (hf : f ≤ f') :
    restoreFile f' O text memO memOut byte = some r := by
  unfold restoreFile at h ⊢
  obtain ⟨o, ho, rfl⟩ := Option.map_eq_some'.1 h
  rw [Restore_mono ho hf]
  rfl

/-- When the first `in_file >> offset >> type` leaves `offset` at `0` and `type`
empty, `Restore` throws in its first iteration, before anything is copied. -/
theorem Restore_throws_at_entry (old_file : IfstreamHangler) (in_file : Ifstream)
    (new_file : OfstreamHangler) (byte : Int) (fuel : Nat)
    (he : in_file.eofbit = false)
    (ht : (Restore.readHeader (Restore.enter old_file in_file new_file byte)).type = [])
    (ho : (Restore.readHeader (Restore.enter old_file in_file new_file byte)).offset = 0) :
    Restore (fuel + 1) old_file in_file new_file byte
      = some (.threw "Wrong symbol for diff type"
          (Restore.readHeader (Restore.enter old_file in_file new_file byte))) := by
  have hc : (!(Restore.enter old_file in_file new_file byte).in_file.eof) = true := by
    simp [Restore.enter, Ifstream.eof, he]
  have hoo : (Restore.readHeader (Restore.enter old_file in_file new_file byte)).old_offset
      = 0 := rfl
  have hcopy : Restore.copyForward (fuel + 1)
      (Restore.readHeader (Restore.enter old_file in_file new_file byte))
      = some (Restore.readHeader (Restore.enter old_file in_file new_file byte)) := by
    simp [Restore.copyForward, ho, hoo]
  have hd : Restore.dispatch (Restore.readHeader (Restore.enter old_file in_file new_file byte))
      = .threw "Wrong symbol for diff type"
          (Restore.readHeader (Restore.enter old_file in_file new_file byte)) := by
    simp [Restore.dispatch, ht]
  simp only [Restore, Restore.records, hc, if_true, Restore.iteration, hcopy, Option.map_some',
    hd]

theorem Restore.readHeader_new_file (s : RestoreState) :
    (Restore.readHeader s).new_file = s.new_file := rfl

theorem Restore_empty_list (O : List Byte) (memO memOut : Nat → Byte) (byte : Int)
    (fuel : Nat) :
    restoreFile (fuel + 1) O [] memO memOut byte
      = some (some "Wrong symbol for diff type", []) := by
  unfold restoreFile
  rw [Restore_throws_at_entry (IfstreamHangler.create O memO) (Ifstream.create [])
    (OfstreamHangler.create memOut) byte fuel rfl rfl rfl]
  rfl

theorem Restore_first_field_malformed (O : List Byte) (text : List Char)
    (memO memOut : Nat → Byte) (byte : Int) (fuel : Nat) (h : firstFieldMalformed text) :
    restoreFile (fuel + 1) O text memO memOut byte
      = some (some "Wrong symbol for diff type", []) := by
  obtain ⟨h1, h2⟩ := h
  have hs : (Ifstream.create text).sentry
      = (true, { Ifstream.create text with rest := text.dropWhile isspace }) := by
    simp [Ifstream.sentry, Ifstream.create, h1]
  have hx : ((Ifstream.create text).extractSizeT 0).1 = 0 ∧
      ((Ifstream.create text).extractSizeT 0).2.failbit = true := by
    simp [Ifstream.extractSizeT, hs, h2]
  unfold restoreFile
  rw [Restore_throws_at_entry _ _ _ _ _ rfl]
  · rfl
  · simp only [Restore.readHeader, Restore.enter]
    rw [Ifstream.extractString_of_fail hx.2]
  · exact hx.1

theorem Restore.readHeader_offset_lt (s : RestoreState) (h : s.offset < SIZE_MOD) :
    (Restore.readHeader s).offset < SIZE_MOD :=
  Ifstream.extractSizeT_lt _ _ h

theorem Restore.dispatch_done_offset {s s' : RestoreState}
    (h : Restore.dispatch s = .done s') : s'.offset = s.offset := by
  unfold Restore.dispatch at h
  split at h
  · cases h; rfl
  · split at h
    · cases h; rfl
    · split at h
      · cases h; rfl
      · cases h

theorem Restore.iterate_offset_lt :
    ∀ (k n : Nat) (s s' : RestoreState), Restore.iterate n k s = some s' →
      s.offset < SIZE_MOD → s'.offset < SIZE_MOD := by
  intro k
  induction k with
  | zero =>
    intro n s s' h hs
    simp only [Restore.iterate, Option.some.injEq] at h
    rw [← h]; exact hs
  | succ k ih =>
    intro n s s' h hs
    simp only [Restore.iterate] at h
    split at h
    · cases hit : Restore.iteration n s with
      | none => rw [hit] at h; simp at h
      | some o =>
        rw [hit] at h
        cases o with
        | threw w s1 => simp at h
        | done s1 =>
          refine ih _ _ _ h ?_
          unfold Restore.iteration at hit
          obtain ⟨s0, h0, hd⟩ := Option.map_eq_some'.1 hit
          rw [Restore.dispatch_done_offset hd, (Restore.copyForward_keeps _ _ _ h0).2.2.1]
          exact Restore.readHeader_offset_lt s hs
    · simp at h

theorem Restore.dispatch_unknown {s : RestoreState} (h : s.type ∉ knownTags) :
    Restore.dispatch s = .threw "Wrong symbol for diff type" s := by
  simp only [knownTags, List.mem_cons, List.mem_singleton, List.not_mem_nil, or_false,
    not_or] at h
  simp [Restore.dispatch, h.1, h.2.1, h.2.2]

/-- When the record loop ends normally with `out` pending as output, every result of
`Restore` is a normal return whose output starts with `out`: the final loop only
appends. -/
theorem Restore_output_extends (f0 : Nat) (out : List Byte) {old_file : IfstreamHangler}
    {in_file : Ifstream} {new_file : OfstreamHangler} {byte : Int}
    (h0 : (Restore.records f0 f0 (Restore.enter old_file in_file new_file byte)).map
      Outcome.report = some (none, out))
    {fuel : Nat} {r : Outcome} (h : Restore fuel old_file in_file new_file byte = some r) :
    ∃ t, r.report = (none, out ++ t) := by
  obtain ⟨o3, ho3, hr3⟩ := Option.map_eq_some'.1 h0
  have m3 := Restore.records_mono _ _ _ _ ho3 (max fuel f0) (max fuel f0)
    (Nat.le_max_right _ _) (Nat.le_max_right _ _)
  unfold Restore at h
  cases hrec : Restore.records fuel fuel (Restore.enter old_file in_file new_file byte) with
  | none => rw [hrec] at h; simp at h
  | some o =>
    have m := Restore.records_mono _ _ _ _ hrec (max fuel f0) (max fuel f0)
      (Nat.le_max_left _ _) (Nat.le_max_left _ _)
    have e : o3 = o := Option.some.inj (m3.symm.trans m)
    subst e
    rw [hrec] at h
    cases o3 with
    | threw w s => simp [Outcome.report] at hr3
    | done s =>
      simp only at h
      obtain ⟨s', hs', rfl⟩ := Option.map_eq_some'.1 h
      obtain ⟨t, ht⟩ := Restore.tail_appends _ _ _ hs'
      refine ⟨t, ?_⟩
      simp only [Outcome.report, Prod.mk.injEq, true_and] at hr3 ⊢
      rw [ht, hr3]

/-! ## The constructor of `Arguments`, case by case -/

theorem is_option_iff (a : List Char) : is_option a = true ↔ beginsWithDash a := by
  cases a with
  | nil => simp [is_option, beginsWithDash]
  | cons c cs => simp [is_option, beginsWithDash]

/-- The constructor on an argument vector with at least one argument after the
program name, by cases on that argument. -/
theorem Arguments.create_cons (p a : List Char) (rest : List (List Char)) :
    Arguments.create (p :: a :: rest) =
      if beginsWithDash a then
        if a = "--diff".toList then Arguments.readNames (p :: a :: rest) Mode.Diff 2
        else if a = "--restore".toList then Arguments.readNames (p :: a :: rest) Mode.Restore 2
        else .error ("Wrong option " ++ String.mk a)
      else Arguments.readNames (p :: a :: rest) Mode.Diff 1 := by
  have hlen : ¬ ((p :: a :: rest).length ≤ 1) := by simp
  have hget : (p :: a :: rest).getD 1 [] = a := rfl
  unfold Arguments.create Arguments.readMode
  rw [if_neg hlen, hget]
  by_cases hd : beginsWithDash a
  · rw [if_pos hd, if_pos ((is_option_iff a).2 hd)]
    unfold parse_option
    by_cases h1 : a = "--diff".toList
    · rw [if_pos h1, if_pos h1]; rfl
    · rw [if_neg h1, if_neg h1]
      by_cases h2 : a = "--restore".toList
      · rw [if_pos h2, if_pos h2]; rfl
      · rw [if_neg h2, if_neg h2]; rfl
  · have : ¬ (is_option a = true) := fun h => hd ((is_option_iff a).1 h)
    rw [if_neg hd, if_neg this]

theorem Arguments.readNames_error_iff (argv : List (List Char)) (m : Mode) (argi : Nat) :
    (∃ e, Arguments.readNames argv m argi = .error e) ↔ argv.length ≤ argi + 1 := by
  unfold Arguments.readNames
  by_cases h : argv.length ≤ argi + 1
  · simp [h]
  · simp [h]

theorem positionalArgs_dash (p a : List Char) (rest : List (List Char))
    (hd : beginsWithDash a) : positionalArgs (p :: a :: rest) = rest := by
  simp [positionalArgs, givenArgs, hd]

theorem positionalArgs_plain (p a : List Char) (rest : List (List Char))
    (hd : ¬ beginsWithDash a) : positionalArgs (p :: a :: rest) = a :: rest := by
  simp [positionalArgs, givenArgs, hd]

/-- The constructor throws exactly in the three cases of a bad command line. -/
theorem Arguments.create_error_iff (argv : List (List Char)) :
    (∃ e, Arguments.create argv = .error e) ↔
      (givenArgs argv = [] ∨
        (∃ a, (givenArgs argv).head? = some a ∧ beginsWithDash a ∧
          a ≠ "--diff".toList ∧ a ≠ "--restore".toList) ∨
        (positionalArgs argv).length < 2) := by
  rcases argv with _ | ⟨p, _ | ⟨a, rest⟩⟩
  · simp [Arguments.create, givenArgs]
  · simp [Arguments.create, givenArgs]
  · rw [Arguments.create_cons]
    have hg : givenArgs (p :: a :: rest) = a :: rest := rfl
    have hne : ¬ (givenArgs (p :: a :: rest) = []) := by rw [hg]; simp
    have hhead : ∀ b, (givenArgs (p :: a :: rest)).head? = some b ↔ a = b := by
      intro b; rw [hg]; simp
    by_cases hd : beginsWithDash a
    · rw [if_pos hd, positionalArgs_dash p a rest hd]
      by_cases h1 : a = "--diff".toList
      · rw [if_pos h1, Arguments.readNames_error_iff]
        constructor
        · intro h; right; right; simp only [List.length_cons] at h; omega
        · rintro (h | ⟨b, hb, -, hb1, -⟩ | h)
          · exact absurd h hne
          · exact absurd (((hhead b).1 hb).symm.trans h1) hb1
          · simp only [List.length_cons]; omega
      · rw [if_neg h1]
        by_cases h2 : a = "--restore".toList
        · rw [if_pos h2, Arguments.readNames_error_iff]
          constructor
          · intro h; right; right; simp only [List.length_cons] at h; omega
          · rintro (h | ⟨b, hb, -, -, hb2⟩ | h)
            · exact absurd h hne
            · exact absurd (((hhead b).1 hb).symm.trans h2) hb2
            · simp only [List.length_cons]; omega
        · rw [if_neg h2]
          constructor
          · intro _; right; left
            exact ⟨a, (hhead a).2 rfl, hd, h1, h2⟩
          · intro _; exact ⟨_, rfl⟩
    · rw [if_neg hd, positionalArgs_plain p a rest hd, Arguments.readNames_error_iff]
      constructor
      · intro h; right; right; simp only [List.length_cons] at h ⊢; omega
      · rintro (h | ⟨b, hb, hbd, -, -⟩ | h)
        · exact absurd h hne
        · exact absurd (((hhead b).1 hb) ▸ hbd) hd
        · simp only [List.length_cons] at h ⊢; omega

/-! ## Sequences of `GetByte` calls -/

theorem IfstreamHangler.ReadsAt.advance {F : List Byte} :
    ∀ (j k : Nat) (h : IfstreamHangler), h.ReadsAt F k → k + j ≤ F.length →
      (h.advance j).ReadsAt F (k + j) := by
  intro j
  induction j with
  | zero => intro k h inv _; exact inv
  | succ j ih =>
    intro k h inv hle
    have := ih (k + 1) h.GetByte.2 (inv.getByte (by omega)).2 (by omega)
    rw [Nat.add_assoc, Nat.add_comm 1 j] at this
    exact this

theorem IfstreamHangler.ReadsAt.hasMore_iff {h : IfstreamHangler} {F : List Byte} {k : Nat}
    (inv : h.ReadsAt F k) : h.hasMore = true ↔ k < F.length := by
  simp [IfstreamHangler.hasMore, inv.done, inv.sz]

/-! ## Sequences of `PutByte` calls -/

theorem OfstreamHangler.ready_ind_lt (h : OfstreamHangler) (hi : h.ind_ ≤ BUFFER_SIZE) :
    h.ready.ind_ < BUFFER_SIZE := by
  unfold OfstreamHangler.ready
  by_cases he : h.ind_ = BUFFER_SIZE
  · simp [he, BUFFER_SIZE]
  · have : (h.ind_ == BUFFER_SIZE) = false := by simpa using he
    simp only [this, Bool.false_eq_true, if_false]
    omega

theorem OfstreamHangler.PutByte_ind_le (h : OfstreamHangler) (b : Byte)
    (hi : h.ind_ ≤ BUFFER_SIZE) : (h.PutByte b).ind_ ≤ BUFFER_SIZE := by
  have := h.ready_ind_lt hi
  simp only [OfstreamHangler.PutByte]
  omega

theorem OfstreamHangler.putAll_spec :
    ∀ (bs : List Byte) (h : OfstreamHangler), h.ind_ ≤ BUFFER_SIZE →
      (h.putAll bs).destroy = h.destroy ++ bs ∧ (h.putAll bs).ind_ ≤ BUFFER_SIZE := by
  intro bs
  induction bs with
  | nil => intro h hi; exact ⟨by simp [OfstreamHangler.putAll], hi⟩
  | cons b bs ih =>
    intro h hi
    obtain ⟨h1, h2⟩ := ih (h.PutByte b) (h.PutByte_ind_le b hi)
    refine ⟨?_, h2⟩
    have e : h.putAll (b :: bs) = (h.PutByte b).putAll bs := rfl
    rw [e, h1, OfstreamHangler.destroy_PutByte]
    simp

/-! ## `Diff` reads only where bytes are left -/

theorem Diff.audit1_ok (O N : List Byte) :
    ∀ (fuel k : Nat) (s : DiffState), s.old_file.ReadsAt O k → s.new_file.ReadsAt N k →
      Diff.audit1 fuel s = true := by
  intro fuel
  induction fuel with
  | zero => intro k s _ _; rfl
  | succ fuel ih =>
    intro k s ho hn
    simp only [Diff.audit1]
    split
    · rename_i hc
      simp only [Bool.and_eq_true, Bool.not_eq_true'] at hc
      have hkO : k < O.length := by
        have h1 := ho.le
        have h2 : ¬ (k = O.length) := fun e => by
          have := ho.isEof_iff.2 e
          rw [hc.1] at this; cases this
        omega
      have hkN : k < N.length := by
        have h1 := hn.le
        have h2 : ¬ (k = N.length) := fun e => by
          have := hn.isEof_iff.2 e
          rw [hc.2] at this; cases this
        omega
      have a1 := ho.hasMore_iff.2 hkO
      have a2 := hn.hasMore_iff.2 hkN
      have a3 := ih (k + 1) (Diff.body1 s) (ho.getByte hkO).2 (hn.getByte hkN).2
      simp [a1, a2, a3]
    · rfl

theorem Diff.audit2_ok (O : List Byte) :
    ∀ (fuel k : Nat) (s : DiffState), s.old_file.ReadsAt O k → Diff.audit2 fuel s = true := by
  intro fuel
  induction fuel with
  | zero => intro k s _; rfl
  | succ fuel ih =>
    intro k s ho
    simp only [Diff.audit2]
    split
    · rename_i hc
      simp only [Bool.not_eq_true'] at hc
      have hkO : k < O.length := by
        have h1 := ho.le
        have h2 : ¬ (k = O.length) := fun e => by
          have := ho.isEof_iff.2 e
          rw [hc] at this; cases this
        omega
      have a1 := ho.hasMore_iff.2 hkO
      have a3 := ih (k + 1) (Diff.body2 s) (ho.getByte hkO).2
      simp [a1, a3]
    · rfl

theorem Diff.audit3_ok (O : List Byte) (fuel : Nat) (s : DiffState)
    (ho : s.old_file.ReadsAt O O.length) :
    Diff.audit3 fuel s = true ∧ Diff.count3 fuel s = 0 := by
  have hc : s.old_file.IsEof = true := ho.isEof_iff.2 rfl
  cases fuel with
  | zero => exact ⟨rfl, rfl⟩
  | succ fuel => simp [Diff.audit3, Diff.count3, hc]

/-- The three loops of `Diff` one after the other, with the states between them. -/
theorem Diff_loops (O N : List Byte) (memO memN : Nat → Byte) (out : List Char) (fuel : Nat)
    (hO : O.length < SIZE_MOD) (hN : N.length < SIZE_MOD) (hfuel : O.length < fuel) :
    ∃ s1 s2,
      Diff.loop1 fuel { old_file := IfstreamHangler.create O memO,
                        new_file := IfstreamHangler.create N memN,
                        out_file := out, offset := 0 } = some s1 ∧
      Diff.loop2 fuel s1 = some s2 ∧ Diff.loop3 fuel s2 = some s2 ∧
      Diff fuel (IfstreamHangler.create O memO) (IfstreamHangler.create N memN) out = some s2 ∧
      s1.old_file.ReadsAt O (min O.length N.length) ∧
      s1.new_file.ReadsAt N (min O.length N.length) ∧
      s2.old_file.ReadsAt O O.length ∧ s2.new_file = s1.new_file := by
  obtain ⟨s1, e1, o1, n1, f1, -⟩ :=
    Diff.loop1_run O N (min O.length N.length) 0 fuel
      { old_file := IfstreamHangler.create O memO, new_file := IfstreamHangler.create N memN,
        out_file := out, offset := 0 }
      (IfstreamHangler.create_readsAt O memO hO) (IfstreamHangler.create_readsAt N memN hN)
      rfl (by omega) (by omega)
  rw [Nat.zero_add] at o1 n1 f1
  obtain ⟨s2, e2, o2, n2, -, -⟩ :=
    Diff.loop2_run O (O.length - min O.length N.length) (min O.length N.length) fuel s1
      o1 f1 (by omega) (by omega)
  have hlen : min O.length N.length + (O.length - min O.length N.length) = O.length := by omega
  rw [hlen] at o2
  obtain ⟨f, rfl⟩ : ∃ f, fuel = f + 1 := ⟨fuel - 1, by omega⟩
  have e3 := Diff.loop3_run O f s2 o2
  refine ⟨s1, s2, e1, e2, e3, ?_, o1, n1, o2, n2⟩
  unfold Diff
  rw [e1, Option.bind, e2]
  exact e3

/-! ## Offset and kind of the lines of a change list -/

theorem dropWhile_append_stop {α : Type} (p : α → Bool) (l r : List α) (x : α)
    (hl : ∀ c ∈ l, p c = true) (hx : p x = false) :
    (l ++ x :: r).dropWhile p = x :: r := by
  induction l with
  | nil => simp [List.dropWhile, hx]
  | cons a l ih =>
    have ha := hl a (List.mem_cons_self _ _)
    simp only [List.cons_append, List.dropWhile_cons, ha, if_true]
    exact ih (fun c hc => hl c (List.mem_cons_of_mem _ hc))

theorem lineKind_decimal (n : Nat) (r : List Char) :
    lineKind (decimal n ++ ' ' :: r) = r.head? := by
  unfold lineKind
  rw [dropWhile_append_stop Char.isDigit _ _ _ (fun c hc => decimal_isDigit hc) (by decide)]
  rfl

/-- The line of a record: offset, a space, the kind tag, the rest, and the newline
that ends it. -/
theorem ChangeRecord.line_shape (r : ChangeRecord) :
    ∃ b, r.line = (decimal r.offset ++ ' ' :: r.kind :: b) ++ '\n' :: [] ∧
      ∀ c ∈ decimal r.offset ++ ' ' :: r.kind :: b, c ≠ '\n' := by
  obtain ⟨b, hb, hnl, -⟩ := r.line_eq
  cases r with
  | Change i x y =>
    refine ⟨' ' :: (decimal x.val ++ ' ' :: decimal y.val), ?_, ?_⟩
    · simp [ChangeRecord.line, ChangeRecord.offset, ChangeRecord.kind]
    · have e : decimal (ChangeRecord.Change i x y).offset ++ ' ' ::
          (ChangeRecord.Change i x y).kind :: ' ' :: (decimal x.val ++ ' ' :: decimal y.val)
          = decimal (ChangeRecord.Change i x y).offset ++ ' ' :: b := by
        have := hb
        simp only [ChangeRecord.line, ChangeRecord.offset, ChangeRecord.kind,
          List.append_assoc, List.cons_append, List.nil_append, List.singleton_append] at this ⊢
        have h2 := List.append_cancel_left this
        simp only [List.cons.injEq, true_and] at h2
        rw [List.append_cancel_left_eq, List.cons.injEq]
        refine ⟨rfl, ?_⟩
        have h3 : ('c' :: ' ' :: (decimal x.val ++ ' ' :: decimal y.val)) ++ ['\n']
            = b ++ ['\n'] := by simpa using h2
        exact List.append_cancel_right h3
      rw [e]; exact hnl
  | Delete i =>
    refine ⟨[], ?_, ?_⟩
    · simp [ChangeRecord.line, ChangeRecord.offset, ChangeRecord.kind]
    · intro c hc
      simp only [ChangeRecord.offset, ChangeRecord.kind, List.mem_append, List.mem_cons,
        List.not_mem_nil, or_false] at hc
      rcases hc with h | rfl | rfl
      · have := decimal_isDigit h
        rintro rfl; revert this; decide
      · decide
      · decide
  | Insert i =>
    refine ⟨[], ?_, ?_⟩
    · simp [ChangeRecord.line, ChangeRecord.offset, ChangeRecord.kind]
    · intro c hc
      simp only [ChangeRecord.offset, ChangeRecord.kind, List.mem_append, List.mem_cons,
        List.not_mem_nil, or_false] at hc
      rcases hc with h | rfl | rfl
      · have := decimal_isDigit h
        rintro rfl; revert this; decide
      · decide
      · decide

theorem recordsRead_lines (rs : List ChangeRecord) :
    recordsRead (rs.flatMap ChangeRecord.line)
      = rs.map fun r => (r.offset, some r.kind) := by
  induction rs with
  | nil => rfl
  | cons r rs ih =>
    obtain ⟨b, hb, hnl⟩ := r.line_shape
    unfold recordsRead at ih ⊢
    rw [List.flatMap_cons, hb, List.append_assoc, List.singleton_append,
      textLines_append_newline _ _ hnl, List.map_cons, ih, List.map_cons, lineOffset_decimal,
      lineKind_decimal]
    rfl

/-! ## Where the reference records lie -/

theorem specRecords_mem {O N : List Byte} {r : ChangeRecord} (hr : r ∈ specRecords O N) :
    (r.kind = 'c' ∧ r.offset < min O.length N.length) ∨
      (r.kind = 'd' ∧ N.length ≤ r.offset ∧ r.offset < O.length) := by
  rcases List.mem_append.1 hr with h | h
  · obtain ⟨j, hj, hc⟩ := List.mem_filterMap.1 h
    obtain ⟨a, b, rfl, -⟩ := changeAt_some hc
    exact Or.inl ⟨rfl, List.mem_range.1 hj⟩
  · obtain ⟨j, hj, rfl⟩ := List.mem_map.1 h
    have := List.mem_range'_1.1 hj
    refine Or.inr ⟨rfl, ?_, ?_⟩
    · simp only [ChangeRecord.offset]; omega
    · simp only [ChangeRecord.offset]; omega

theorem specRecords_length_le (O N : List Byte) : (specRecords O N).length ≤ O.length := by
  have := (specRecords_offsets_sublist O N).length_le
  simpa using this

/-! ## Claims about `Diff` -/

/-- C2. `Diff` equals its reference definition. With both files shorter than `2 ^ 64`
bytes and a budget larger than the old file, `Diff` returns, and the change list it
has written is exactly the reference text `DiffSpec O N`: for each offset
`i < min(|O|,|N|)` with `O[i] != N[i]`, in increasing `i`, the line
`<i> c <O[i]> <N[i]>` in decimal, then for each `i` from `min(|O|,|N|)` up to
`|O| - 1` the line `<i> d`, and nothing else. -/
theorem Diff_eq_reference (O N : List Byte) (memO memN : Nat → Byte) (fuel : Nat)
    (hO : O.length < SIZE_MOD) (hN : N.length < SIZE_MOD) (hfuel : O.length < fuel) :
    diffText fuel O N memO memN = some (DiffSpec O N) := by
  obtain ⟨s, hs, hout, -⟩ := Diff_run O N memO memN [] fuel hO hN hfuel
  simp [diffText, hs, hout]

set_option maxRecDepth 100000 in
/-- C2, witness: for `O = [1,2,3,4]` and `N = [1,0x99,3]` the reference records are
`Change 1 0x02 0x99` and `Delete 3`, and `Diff` writes their two lines. -/
theorem Diff_eq_reference_witness :
    diffText 5 [1, 2, 3, 4] [1, 0x99, 3] (fun _ => 0) (fun _ => 0)
        = some (DiffSpec [1, 2, 3, 4] [1, 0x99, 3]) ∧
      specRecords [1, 2, 3, 4] [1, 0x99, 3] = [.Change 1 0x02 0x99, .Delete 3] ∧
      DiffSpec [1, 2, 3, 4] [1, 0x99, 3] = "1 c 2 153\n3 d\n".toList :=
  ⟨Diff_eq_reference [1, 2, 3, 4] [1, 0x99, 3] (fun _ => 0) (fun _ => 0) 5
      (by decide) (by decide) (by decide),
    by decide, by decide⟩

/-- C6. Trailing new bytes are dropped. `Diff` returns a change list that has no
character `i` in it, hence no insert line; and when the new file is longer than the
old one the change list is the one written for the old file and the first `|O|`
bytes of the new file. -/
theorem Diff_drops_trailing_new_bytes (O N : List Byte) (memO memN memN' : Nat → Byte)
    (fuel : Nat) (hO : O.length < SIZE_MOD) (hN : N.length < SIZE_MOD)
    (hfuel : O.length < fuel) :
    (∃ text, diffText fuel O N memO memN = some text ∧ 'i' ∉ text) ∧
      (O.length < N.length →
        diffText fuel O N memO memN = diffText fuel O (N.take O.length) memO memN') := by
  obtain ⟨s, hs, hout, -⟩ := Diff_run O N memO memN [] fuel hO hN hfuel
  have e : diffText fuel O N memO memN = some (DiffSpec O N) := by
    simp [diffText, hs, hout]
  refine ⟨⟨_, e, lines_no_insert _ (specRecords_no_insert O N)⟩, ?_⟩
  intro hlt
  have hT : (N.take O.length).length < SIZE_MOD := by
    rw [List.length_take]; omega
  obtain ⟨s', hs', hout', -⟩ := Diff_run O (N.take O.length) memO memN' [] fuel hO hT hfuel
  have e' : diffText fuel O (N.take O.length) memO memN' = some (DiffSpec O (N.take O.length)) := by
    simp [diffText, hs', hout']
  rw [e, e', DiffSpec_take O N hlt]

set_option maxRecDepth 100000 in
/-- C6, witness: for `O = [0x01]` and `N = [0x01,0x02]` the change list is empty. -/
theorem Diff_drops_trailing_new_bytes_witness :
    ((∃ text, diffText 2 [0x01] [0x01, 0x02] (fun _ => 0) (fun _ => 0) = some text ∧ 'i' ∉ text) ∧
      ([(0x01 : Byte)].length < [(0x01 : Byte), 0x02].length →
        diffText 2 [0x01] [0x01, 0x02] (fun _ => 0) (fun _ => 0)
          = diffText 2 [0x01] ([(0x01 : Byte), 0x02].take [(0x01 : Byte)].length)
              (fun _ => 0) (fun _ => 0))) ∧
      diffText 2 [0x01] [0x01, 0x02] (fun _ => 0) (fun _ => 0) = some [] :=
  ⟨Diff_drops_trailing_new_bytes [0x01] [0x01, 0x02] (fun _ => 0) (fun _ => 0) (fun _ => 0) 2
      (by decide) (by decide) (by decide),
    by decide⟩

/-- C7. Identity diff. With a budget larger than the file, `Diff` on `(O, O)` returns
and has written nothing at all: the change list is the empty text. -/
theorem Diff_identity_empty (O : List Byte) (memO memN : Nat → Byte) (fuel : Nat)
    (hO : O.length < SIZE_MOD) (hfuel : O.length < fuel) :
    diffText fuel O O memO memN = some [] := by
  obtain ⟨s, hs, hout, -⟩ := Diff_run O O memO memN [] fuel hO hO hfuel
  simp [diffText, hs, hout, DiffSpec_self]

/-- C7, witness: the file `[1,2,3]` against itself. -/
theorem Diff_identity_empty_witness :
    diffText 4 [1, 2, 3] [1, 2, 3] (fun _ => 0) (fun _ => 0) = some [] :=
  Diff_identity_empty [1, 2, 3] (fun _ => 0) (fun _ => 0) 4 (by decide) (by decide)

/-- C8. Offset monotonicity. `Diff` returns a change list whose record offsets, read
back line by line in file order, are non-decreasing: each offset is at most every
later one. -/
theorem Diff_offsets_nondecreasing (O N : List Byte) (memO memN : Nat → Byte) (fuel : Nat)
    (hO : O.length < SIZE_MOD) (hN : N.length < SIZE_MOD) (hfuel : O.length < fuel) :
    ∃ text, diffText fuel O N memO memN = some text ∧
      (recordOffsets text).Pairwise (· ≤ ·) := by
  obtain ⟨s, hs, hout, -⟩ := Diff_run O N memO memN [] fuel hO hN hfuel
  refine ⟨DiffSpec O N, by simp [diffText, hs, hout], ?_⟩
  unfold DiffSpec
  rw [recordOffsets_lines]
  exact (specRecords_offsets_lt O N).imp Nat.le_of_lt

set_option maxRecDepth 100000 in
/-- C8, witness: for `O = [1,2,3,4]` and `N = [1,0x99,3]` the offsets read back are
`1` and `3`. -/
theorem Diff_offsets_nondecreasing_witness :
    (∃ text, diffText 5 [1, 2, 3, 4] [1, 0x99, 3] (fun _ => 0) (fun _ => 0) = some text ∧
      (recordOffsets text).Pairwise (· ≤ ·)) ∧
      (diffText 5 [1, 2, 3, 4] [1, 0x99, 3] (fun _ => 0) (fun _ => 0)).map recordOffsets
        = some [1, 3] :=
  ⟨Diff_offsets_nondecreasing [1, 2, 3, 4] [1, 0x99, 3] (fun _ => 0) (fun _ => 0) 5
      (by decide) (by decide) (by decide),
    by decide⟩

/-! ## Claims about `Restore` -/

set_option maxRecDepth 100000 in
/-- C1. The code at the truncation case `O = [0x01,0x02,0x03,0x04]`,
`N = [0x01,0x99,0x03]`: `Diff` writes the lines `1 c 2 153` and `3 d`, and `Restore` on
`O` with that text returns normally with the output `[0x01,0x99,0x03,0x04]`: the old
byte at offset `3` that the `d` record names is still copied, so the output is not `N`. -/
theorem Restore_truncation_case :
    diffText 5 [0x01, 0x02, 0x03, 0x04] [0x01, 0x99, 0x03] (fun _ => 0) (fun _ => 0)
        = some "1 c 2 153\n3 d\n".toList ∧
      ∀ fuel, restoreFile (fuel + 4) [0x01, 0x02, 0x03, 0x04] "1 c 2 153\n3 d\n".toList
        (fun _ => 0) (fun _ => 0) 0 = some (none, [0x01, 0x99, 0x03, 0x04]) :=
  ⟨by decide, fun fuel => restoreFile_mono (f := 4) (by decide) (Nat.le_add_left 4 fuel)⟩

set_option maxRecDepth 100000 in
/-- C3. The code on the change list of an unchanged file: `Diff` writes the empty text
(here for `O = [0x01]`), and `Restore` on any `O` with the empty text throws
`Wrong symbol for diff type` in its first iteration and leaves the output empty; it
neither completes without an error nor outputs `O`. -/
theorem Restore_identity_throws :
    diffText 2 [0x01] [0x01] (fun _ => 0) (fun _ => 0) = some [] ∧
      ∀ (O : List Byte) (memO memOut : Nat → Byte) (byte : Int) (fuel : Nat),
        restoreFile (fuel + 1) O [] memO memOut byte
          = some (some "Wrong symbol for diff type", []) :=
  ⟨by decide, Restore_empty_list⟩

set_option maxRecDepth 100000 in
/-- C4. The code at the single substitution `O = [0xAA,0xBB]`, `N = [0xAA,0xCC]`: `Diff`
writes the one line `1 c 187 204`; the record loop of `Restore` runs its body once
more after that line with the stale record, so that it ends with `0xAA 0xCC 0xCC`
pending as output and three bytes taken from the two-byte old file; whatever the
budget, `Restore` does not return with the output `N`. -/
theorem Restore_single_substitution_case :
    diffText 3 [0xAA, 0xBB] [0xAA, 0xCC] (fun _ => 0) (fun _ => 0)
        = some "1 c 187 204\n".toList ∧
      (Restore.records 3 3
          (Restore.enter (IfstreamHangler.create [0xAA, 0xBB] fun _ => 0)
            (Ifstream.create "1 c 187 204\n".toList) (OfstreamHangler.create fun _ => 0) 0)).map
          (fun o => (o.report, o.state.old_file.done_, o.state.old_file.sz_))
        = some ((none, [0xAA, 0xCC, 0xCC]), 3, 2) ∧
      ∀ fuel, restoreFile fuel [0xAA, 0xBB] "1 c 187 204\n".toList (fun _ => 0) (fun _ => 0) 0
        ≠ some (none, [0xAA, 0xCC]) := by
  refine ⟨by decide, by decide, ?_⟩
  intro fuel h
  unfold restoreFile at h
  obtain ⟨o, ho, hrep⟩ := Option.map_eq_some'.1 h
  obtain ⟨t, ht⟩ := Restore_output_extends 3 [0xAA, 0xCC, 0xCC] (by decide) ho
  rw [ht] at hrep
  simp at hrep

set_option maxRecDepth 100000 in
/-- C5. The code at the proper-prefix case `O = [0x01,0x02,0x03]`, `N = [0x01]`: `Diff`
writes the lines `1 d` and `2 d`, and `Restore` on `O` with that text returns with the
output `[0x01,0x02,0x03]`: the bytes at the deleted offsets `1` and `2` are written,
so the output is `O`, not `N`. -/
theorem Restore_delete_case :
    diffText 4 [0x01, 0x02, 0x03] [0x01] (fun _ => 0) (fun _ => 0)
        = some "1 d\n2 d\n".toList ∧
      ∀ fuel, restoreFile (fuel + 4) [0x01, 0x02, 0x03] "1 d\n2 d\n".toList
        (fun _ => 0) (fun _ => 0) 0 = some (none, [0x01, 0x02, 0x03]) :=
  ⟨by decide, fun fuel => restoreFile_mono (f := 4) (by decide) (Nat.le_add_left 4 fuel)⟩

/-- C9. Unrecognized tag is fatal. Take any original `O` and any change list, and let
`s` be the state at the head of the record loop after `k` complete iterations. If the
loop goes on (`eof()` is false) and `in_file >> offset >> type` leaves in `type` none of
`c`, `d`, `i`, then, with a budget `n` above `k` and above the length of this record's
copy-forward, that copy-forward ends in a state `s1` and `Restore` throws
`Wrong symbol for diff type` with exactly the state `s1`: nothing more is read from the
change list, no later record is processed, no further old byte is copied, and `main`
reports the message with the output written up to there. -/
theorem Restore_unrecognized_tag_fatal (O : List Byte) (text : List Char)
    (memO memOut : Nat → Byte) (byte : Int) (k n : Nat) (s : RestoreState)
    (hreach : Restore.iterate n k
      (Restore.enter (IfstreamHangler.create O memO) (Ifstream.create text)
        (OfstreamHangler.create memOut) byte) = some s)
    (heof : s.in_file.eof = false)
    (htag : (Restore.readHeader s).type ∉ knownTags)
    (hk : k < n) (hn : (Restore.readHeader s).offset - s.old_offset < n) :
    ∃ s1, Restore.copyForward n (Restore.readHeader s) = some s1 ∧
      Restore n (IfstreamHangler.create O memO) (Ifstream.create text)
        (OfstreamHangler.create memOut) byte
          = some (.threw "Wrong symbol for diff type" s1) ∧
      s1.in_file = (Restore.readHeader s).in_file ∧
      restoreFile n O text memO memOut byte
        = some (some "Wrong symbol for diff type", s1.new_file.destroy) := by
  have hoff : s.offset < SIZE_MOD :=
    Restore.iterate_offset_lt _ _ _ _ hreach (by decide : (0 : Nat) < SIZE_MOD)
  obtain ⟨s1, h1⟩ := Restore.copyForward_returns n (Restore.readHeader s)
    (Restore.readHeader_offset_lt s hoff) hn
  obtain ⟨k1, k2, -, -⟩ := Restore.copyForward_keeps _ _ _ h1
  have hd : Restore.dispatch s1 = .threw "Wrong symbol for diff type" s1 :=
    Restore.dispatch_unknown (by rw [k2]; exact htag)
  obtain ⟨f, rfl⟩ : ∃ f, n = k + (f + 1) := ⟨n - k - 1, by omega⟩
  have hrec : Restore.records (k + (f + 1)) (k + (f + 1))
      (Restore.enter (IfstreamHangler.create O memO) (Ifstream.create text)
        (OfstreamHangler.create memOut) byte)
      = some (.threw "Wrong symbol for diff type" s1) := by
    rw [Restore.records_iterate _ _ _ _ _ hreach]
    have hc : (!s.in_file.eof) = true := by simp [heof]
    simp only [Restore.records, hc, if_true, Restore.iteration, h1, Option.map_some', hd]
  have hR : Restore (k + (f + 1)) (IfstreamHangler.create O memO) (Ifstream.create text)
      (OfstreamHangler.create memOut) byte = some (.threw "Wrong symbol for diff type" s1) := by
    simp only [Restore, hrec]
  refine ⟨s1, h1, hR, k1, ?_⟩
  simp only [restoreFile, hR, Option.map_some', Outcome.report]

set_option maxRecDepth 100000 in
/-- On `O = [0x01,0x02]` with the change list `1 d` / `5 x` the record loop completes its
first iteration. -/
theorem unknownTag_example_reaches :
    (Restore.iterate 6 1
      (Restore.enter (IfstreamHangler.create [0x01, 0x02] fun _ => 0)
        (Ifstream.create "1 d\n5 x\n".toList) (OfstreamHangler.create fun _ => 0) 0)).isSome
      = true := by
  decide

set_option maxRecDepth 100000 in
/-- C9, witness: `O = [0x01,0x02]` with the change list `1 d` / `5 x`. After one complete
iteration the second record has the tag `x`; `Restore` throws, and `main` reports the
message with the two bytes copied so far. -/
theorem Restore_unrecognized_tag_fatal_witness :
    (∃ out, restoreFile 6 [0x01, 0x02] "1 d\n5 x\n".toList (fun _ => 0) (fun _ => 0) 0
        = some (some "Wrong symbol for diff type", out)) ∧
      restoreFile 6 [0x01, 0x02] "1 d\n5 x\n".toList (fun _ => 0) (fun _ => 0) 0
        = some (some "Wrong symbol for diff type", [0x01, 0x02]) := by
  refine ⟨?_, by decide⟩
  obtain ⟨s1, -, -, -, hfile⟩ :=
    Restore_unrecognized_tag_fatal [0x01, 0x02] "1 d\n5 x\n".toList (fun _ => 0) (fun _ => 0)
      0 1 6 (Option.get _ unknownTag_example_reaches)
      (Option.some_get unknownTag_example_reaches).symm
      (by decide) (by decide) (by decide) (by decide)
  exact ⟨_, hfile⟩

set_option maxRecDepth 100000 in
/-- On `O = [0x01,0x02]` with the change list `1 d` / `x d` the record loop completes two
iterations. -/
theorem malformedOffset_example_reaches :
    (Restore.iterate 2 2
      (Restore.enter (IfstreamHangler.create [0x01, 0x02] fun _ => 0)
        (Ifstream.create "1 d\nx d\n".toList) (OfstreamHangler.create fun _ => 0) 0)).isSome
      = true := by
  decide

set_option maxRecDepth 100000 in
/-- C10. The code on `O = [0x01,0x02]` with the change list `1 d` / `x d`, whose second
record has the offset field `x`. After the second pass of the record loop the stream
has `failbit` without `eofbit`, `offset` has been zeroed, `type` still holds the stale
`d`, and `0x01` is pending as output; `Restore` has not stopped. From there every pass
leaves all of this unchanged, so under no budget does `Restore` return or throw: it
goes on with the zeroed and stale values and does not terminate. -/
theorem Restore_malformed_offset_never_ends :
    (Restore.iterate 2 2
        (Restore.enter (IfstreamHangler.create [0x01, 0x02] fun _ => 0)
          (Ifstream.create "1 d\nx d\n".toList) (OfstreamHangler.create fun _ => 0) 0)).map
        (fun s => (s.in_file.failbit, s.in_file.eofbit, s.offset, s.type, s.new_file.destroy))
      = some (true, false, 0, ['d'], [0x01]) ∧
    ¬ ∃ fuel r, restoreFile fuel [0x01, 0x02] "1 d\nx d\n".toList (fun _ => 0) (fun _ => 0) 0
      = some r := by
  refine ⟨by decide, ?_⟩
  rintro ⟨fuel, r, h⟩
  unfold restoreFile at h
  obtain ⟨o, ho, -⟩ := Option.map_eq_some'.1 h
  unfold Restore at ho
  cases hrec : Restore.records fuel fuel
      (Restore.enter (IfstreamHangler.create [0x01, 0x02] fun _ => 0)
        (Ifstream.create "1 d\nx d\n".toList) (OfstreamHangler.create fun _ => 0) 0) with
  | none => rw [hrec] at ho; simp at ho
  | some o' =>
    have m := Restore.records_mono _ _ _ _ hrec (2 + fuel) (fuel + 2) (by omega) (by omega)
    have hit := Restore.iterate_mono _ _ _ _
      (Option.some_get malformedOffset_example_reaches).symm (fuel + 2) (by omega)
    rw [Restore.records_iterate _ _ _ _ _ hit,
      Restore.records_stuck _ _ _ (by decide) (by decide) (by decide)] at m
    simp at m

/-! ## Claims about the command line -/

/-- C12. Argument parsing fails exactly on bad command lines. For every argument
vector, constructing `Arguments` throws if and only if no argument follows the
program name, or the first argument begins with `-` and is neither `--diff` nor
`--restore`, or fewer than two positional arguments follow the optional flag; and it
succeeds if and only if none of the three holds. -/
theorem Arguments_fails_iff (argv : List (List Char)) :
    ((∃ e, Arguments.create argv = .error e) ↔
      (givenArgs argv = [] ∨
        (∃ a, (givenArgs argv).head? = some a ∧ beginsWithDash a ∧
          a ≠ "--diff".toList ∧ a ≠ "--restore".toList) ∨
        (positionalArgs argv).length < 2)) ∧
    ((∃ r, Arguments.create argv = .ok r) ↔
      ¬ (givenArgs argv = [] ∨
        (∃ a, (givenArgs argv).head? = some a ∧ beginsWithDash a ∧
          a ≠ "--diff".toList ∧ a ≠ "--restore".toList) ∨
        (positionalArgs argv).length < 2)) := by
  have key := Arguments.create_error_iff argv
  refine ⟨key, ?_⟩
  rw [← key]
  cases h : Arguments.create argv with
  | error e => simp
  | ok r => simp

/-- C13. Argument defaults. Whenever the constructor of `Arguments` succeeds, the
mode is `Diff` if the first argument does not begin with `-`, `Diff` for the flag
`--diff` and `Restore` for the flag `--restore`; the old and the new name are the
first two positional arguments in order; the output name is the third positional
argument if there is one and `a.out` otherwise. -/
theorem Arguments_defaults (argv : List (List Char)) (r : Arguments)
    (h : Arguments.create argv = .ok r) :
    (∀ a, (givenArgs argv).head? = some a → ¬ beginsWithDash a → r.mode_ = Mode.Diff) ∧
      ((givenArgs argv).head? = some "--diff".toList → r.mode_ = Mode.Diff) ∧
      ((givenArgs argv).head? = some "--restore".toList → r.mode_ = Mode.Restore) ∧
      (positionalArgs argv)[0]? = some r.old_nm_ ∧
      (positionalArgs argv)[1]? = some r.new_nm_ ∧
      r.out_nm_ = ((positionalArgs argv)[2]?).getD "a.out".toList := by
  rcases argv with _ | ⟨p, _ | ⟨a, rest⟩⟩
  · simp [Arguments.create] at h
  · simp [Arguments.create] at h
  · rw [Arguments.create_cons] at h
    have hg : givenArgs (p :: a :: rest) = a :: rest := rfl
    simp only [hg, List.head?_cons, Option.some.injEq]
    by_cases hd : beginsWithDash a
    · rw [positionalArgs_dash p a rest hd]
      simp only [if_pos hd] at h ⊢
      have names : ∀ m, Arguments.readNames (p :: a :: rest) m 2 = .ok r →
          r.mode_ = m ∧ rest[0]? = some r.old_nm_ ∧ rest[1]? = some r.new_nm_ ∧
            r.out_nm_ = (rest[2]?).getD "a.out".toList := by
        intro m hm
        unfold Arguments.readNames at hm
        split at hm
        · cases hm
        · rename_i hlen
          simp only [List.length_cons] at hlen
          cases hm
          rcases rest with _ | ⟨x, _ | ⟨y, _ | ⟨z, t⟩⟩⟩
          · simp at hlen
          · simp at hlen
          · simp
          · simp
      by_cases h1 : a = "--diff".toList
      · rw [if_pos h1] at h
        obtain ⟨hm, h0, h1', h2⟩ := names _ h
        refine ⟨fun b hb hnb => absurd (hb ▸ hd) hnb, fun _ => hm, ?_, h0, h1', h2⟩
        intro hr; rw [h1] at hr; exact absurd hr (by decide)
      · rw [if_neg h1] at h
        by_cases h2 : a = "--restore".toList
        · rw [if_pos h2] at h
          obtain ⟨hm, h0, h1', h2'⟩ := names _ h
          refine ⟨fun b hb hnb => absurd (hb ▸ hd) hnb, ?_, fun _ => hm, h0, h1', h2'⟩
          intro hr; exact absurd hr h1
        · rw [if_neg h2] at h
          cases h
    · rw [positionalArgs_plain p a rest hd]
      simp only [if_neg hd] at h ⊢
      unfold Arguments.readNames at h
      split at h
      · cases h
      · rename_i hlen
        simp only [List.length_cons] at hlen
        cases h
        refine ⟨fun _ _ _ => rfl, ?_, ?_, ?_, ?_, ?_⟩
        · intro hr; exact absurd (by rw [hr]; decide) hd
        · intro hr; exact absurd (by rw [hr]; decide) hd
        · simp
        · rcases rest with _ | ⟨x, t⟩
          · simp at hlen
          · simp
        · rcases rest with _ | ⟨x, _ | ⟨y, t⟩⟩
          · simp at hlen
          · simp
          · simp

/-- C13, witness: `tool --restore old diff` selects `Restore` with the two names and
the output `a.out`; `tool old new out` selects `Diff` with the three names. -/
theorem Arguments_defaults_witness :
    ((positionalArgs ["tool".toList, "--restore".toList, "old".toList, "diff".toList])[0]?
        = some "old".toList ∧
      Arguments.create ["tool".toList, "--restore".toList, "old".toList, "diff".toList]
        = .ok { mode_ := Mode.Restore, old_nm_ := "old".toList, new_nm_ := "diff".toList,
                out_nm_ := "a.out".toList }) ∧
      Arguments.create ["tool".toList, "old".toList, "new".toList, "out".toList]
        = .ok { mode_ := Mode.Diff, old_nm_ := "old".toList, new_nm_ := "new".toList,
                out_nm_ := "out".toList } :=
  ⟨⟨(Arguments_defaults
        ["tool".toList, "--restore".toList, "old".toList, "diff".toList]
        { mode_ := Mode.Restore, old_nm_ := "old".toList, new_nm_ := "diff".toList,
          out_nm_ := "a.out".toList } rfl).2.2.2.1,
      rfl⟩,
    rfl⟩

/-! ## Claims about the buffered reader and writer -/

/-- C16. The buffered reader equals a plain sequential reader. For every file content
`F` shorter than `2 ^ 64` bytes, whatever the buffer held at first: before each of
the first `|F|` calls of `GetByte` the reader is not at its end (`IsEof` is false) and
the call number `j` (from `0`) returns `F[j]`; after `|F|` calls `IsEof` is true. -/
theorem IfstreamHangler_sequential (F : List Byte) (mem : Nat → Byte)
    (hF : F.length < SIZE_MOD) :
    (∀ j, j < F.length →
      ((IfstreamHangler.create F mem).advance j).IsEof = false ∧
        F[j]? = some ((IfstreamHangler.create F mem).advance j).GetByte.1) ∧
      ((IfstreamHangler.create F mem).advance F.length).IsEof = true := by
  have h0 := IfstreamHangler.create_readsAt F mem hF
  constructor
  · intro j hj
    have inv := h0.advance j 0 _ (by omega)
    rw [Nat.zero_add] at inv
    refine ⟨?_, (inv.getByte hj).1⟩
    rw [← Bool.not_eq_true, inv.isEof_iff]
    omega
  · have inv := h0.advance F.length 0 _ (by omega)
    rw [Nat.zero_add] at inv
    exact inv.isEof_iff.2 rfl

/-- C16, witness: a file of `8192` bytes, twice the buffer size, the byte `j` being
`j mod 256`. -/
theorem IfstreamHangler_sequential_witness :
    (∀ j, j < ((List.range 8192).map fun i => (Fin.ofNat i : Byte)).length →
      ((IfstreamHangler.create ((List.range 8192).map fun i => (Fin.ofNat i : Byte))
          fun _ => 0).advance j).IsEof = false ∧
        ((List.range 8192).map fun i => (Fin.ofNat i : Byte))[j]? =
          some ((IfstreamHangler.create ((List.range 8192).map fun i => (Fin.ofNat i : Byte))
            fun _ => 0).advance j).GetByte.1) ∧
      ((IfstreamHangler.create ((List.range 8192).map fun i => (Fin.ofNat i : Byte))
          fun _ => 0).advance
        ((List.range 8192).map fun i => (Fin.ofNat i : Byte)).length).IsEof = true :=
  IfstreamHangler_sequential _ _ (by simp [SIZE_MOD])

/-- C17. The buffered writer loses nothing. For every sequence of bytes passed to
`PutByte` one after the other on a freshly created writer, the file holds exactly
that sequence, in order, once the writer is destroyed; and every byte is stored
inside the buffer, at an index below `BUFFER_SIZE`. -/
theorem OfstreamHangler_loses_nothing (bs : List Byte) (mem : Nat → Byte) :
    ((OfstreamHangler.create mem).putAll bs).destroy = bs ∧
      ∀ n, ((OfstreamHangler.create mem).putAll (bs.take n)).ready.ind_ < BUFFER_SIZE := by
  have h0 : (OfstreamHangler.create mem).ind_ ≤ BUFFER_SIZE := Nat.zero_le _
  constructor
  · rw [(OfstreamHangler.putAll_spec bs _ h0).1]
    rfl
  · intro n
    exact OfstreamHangler.ready_ind_lt _ (OfstreamHangler.putAll_spec (bs.take n) _ h0).2

/-! ## Further claims about `Diff` -/

/-- C11. The code on `O = [0x01]`, `N = [0x01,0x02]`: whatever the budget above `1`,
`Diff` returns with the old reader at its end and the new reader not at its end
(one byte of two consumed), having written nothing. -/
theorem Diff_leaves_new_source (memO memN : Nat → Byte) (fuel : Nat) :
    ∃ s, Diff (fuel + 2) (IfstreamHangler.create [0x01] memO)
        (IfstreamHangler.create [0x01, 0x02] memN) [] = some s ∧
      s.old_file.IsEof = true ∧ s.new_file.IsEof = false ∧
      s.new_file.done_ = 1 ∧ s.new_file.sz_ = 2 ∧ s.out_file = [] := by
  obtain ⟨s, hs, hout, ho, hn, -⟩ :=
    Diff_run [0x01] [0x01, 0x02] memO memN [] (fuel + 2) (by decide) (by decide)
      (by simp)
  refine ⟨s, hs, ho.isEof_iff.2 rfl, ?_, hn.done, hn.sz, ?_⟩
  · rw [← Bool.not_eq_true, hn.isEof_iff]; decide
  · rw [hout]; decide

/-- C19. `Diff` never reads an exhausted source. With both files shorter than
`2 ^ 64` bytes and a budget larger than the old file, `Diff` returns; every execution
of the body of its first loop finds bytes left in both readers, every execution of
the body of its second loop finds bytes left in the old reader, and the third loop is
entered with the old reader at its end, so that its body runs zero times and the loop
returns the state it was entered with. -/
theorem Diff_reads_only_available (O N : List Byte) (memO memN : Nat → Byte) (fuel : Nat)
    (hO : O.length < SIZE_MOD) (hN : N.length < SIZE_MOD) (hfuel : O.length < fuel) :
    ∃ s1 s2,
      Diff.loop1 fuel { old_file := IfstreamHangler.create O memO,
                        new_file := IfstreamHangler.create N memN,
                        out_file := [], offset := 0 } = some s1 ∧
      Diff.loop2 fuel s1 = some s2 ∧ Diff.loop3 fuel s2 = some s2 ∧
      Diff fuel (IfstreamHangler.create O memO) (IfstreamHangler.create N memN) [] = some s2 ∧
      Diff.audit1 fuel { old_file := IfstreamHangler.create O memO,
                         new_file := IfstreamHangler.create N memN,
                         out_file := [], offset := 0 } = true ∧
      Diff.audit2 fuel s1 = true ∧ Diff.audit3 fuel s2 = true ∧
      s2.old_file.IsEof = true ∧ Diff.count3 fuel s2 = 0 := by
  obtain ⟨s1, s2, e1, e2, e3, e, o1, -, o2, -⟩ := Diff_loops O N memO memN [] fuel hO hN hfuel
  refine ⟨s1, s2, e1, e2, e3, e, ?_, ?_, ?_, o2.isEof_iff.2 rfl, ?_⟩
  · exact Diff.audit1_ok O N fuel 0 _ (IfstreamHangler.create_readsAt O memO hO)
      (IfstreamHangler.create_readsAt N memN hN)
  · exact Diff.audit2_ok O fuel _ s1 o1
  · exact (Diff.audit3_ok O fuel s2 o2).1
  · exact (Diff.audit3_ok O fuel s2 o2).2

set_option maxRecDepth 100000 in
/-- C19, witness: `O = [1,2,3,4]`, `N = [1,0x99,3]`. -/
theorem Diff_reads_only_available_witness :
    (∃ s1 s2,
      Diff.loop1 5 { old_file := IfstreamHangler.create [1, 2, 3, 4] fun _ => 0,
                     new_file := IfstreamHangler.create [1, 0x99, 3] fun _ => 0,
                     out_file := [], offset := 0 } = some s1 ∧
      Diff.loop2 5 s1 = some s2 ∧ Diff.loop3 5 s2 = some s2 ∧
      Diff 5 (IfstreamHangler.create [1, 2, 3, 4] fun _ => 0)
        (IfstreamHangler.create [1, 0x99, 3] fun _ => 0) [] = some s2 ∧
      Diff.audit1 5 { old_file := IfstreamHangler.create [1, 2, 3, 4] fun _ => 0,
                      new_file := IfstreamHangler.create [1, 0x99, 3] fun _ => 0,
                      out_file := [], offset := 0 } = true ∧
      Diff.audit2 5 s1 = true ∧ Diff.audit3 5 s2 = true ∧
      s2.old_file.IsEof = true ∧ Diff.count3 5 s2 = 0) ∧
    (Diff 5 (IfstreamHangler.create [1, 2, 3, 4] fun _ => 0)
        (IfstreamHangler.create [1, 0x99, 3] fun _ => 0) []).map
      (fun s => (s.old_file.done_, s.new_file.done_)) = some (4, 3) :=
  ⟨Diff_reads_only_available [1, 2, 3, 4] [1, 0x99, 3] (fun _ => 0) (fun _ => 0) 5
      (by decide) (by decide) (by decide),
    by decide⟩

/-- C20. Record offsets are bounded by the length of the original. `Diff` returns a
change list whose records, read back line by line, all have a kind `c` or `d` and an
offset below `|O|`; the offsets are strictly increasing; every `c` offset is below
`min(|O|,|N|)` and every `d` offset is at least `|N|`; and there are at most `|O|`
records. -/
theorem Diff_record_bounds (O N : List Byte) (memO memN : Nat → Byte) (fuel : Nat)
    (hO : O.length < SIZE_MOD) (hN : N.length < SIZE_MOD) (hfuel : O.length < fuel) :
    ∃ text, diffText fuel O N memO memN = some text ∧
      (∀ r ∈ recordsRead text, (r.2 = some 'c' ∨ r.2 = some 'd') ∧ r.1 < O.length) ∧
      ((recordsRead text).map Prod.fst).Pairwise (· < ·) ∧
      (∀ r ∈ recordsRead text, r.2 = some 'c' → r.1 < min O.length N.length) ∧
      (∀ r ∈ recordsRead text, r.2 = some 'd' → N.length ≤ r.1) ∧
      (recordsRead text).length ≤ O.length := by
  obtain ⟨s, hs, hout, -⟩ := Diff_run O N memO memN [] fuel hO hN hfuel
  refine ⟨DiffSpec O N, by simp [diffText, hs, hout], ?_⟩
  unfold DiffSpec
  rw [recordsRead_lines]
  have hmem : ∀ r ∈ (specRecords O N).map (fun r => (r.offset, some r.kind)),
      (r.2 = some 'c' ∧ r.1 < min O.length N.length) ∨
        (r.2 = some 'd' ∧ N.length ≤ r.1 ∧ r.1 < O.length) := by
    intro r hr
    obtain ⟨x, hx, rfl⟩ := List.mem_map.1 hr
    rcases specRecords_mem hx with ⟨h1, h2⟩ | ⟨h1, h2, h3⟩
    · exact Or.inl ⟨by rw [h1], h2⟩
    · exact Or.inr ⟨by rw [h1], h2, h3⟩
  refine ⟨?_, ?_, ?_, ?_, ?_⟩
  · intro r hr
    rcases hmem r hr with ⟨h1, h2⟩ | ⟨h1, h2, h3⟩
    · exact ⟨Or.inl h1, by omega⟩
    · exact ⟨Or.inr h1, h3⟩
  · rw [List.map_map]
    exact specRecords_offsets_lt O N
  · intro r hr hc
    rcases hmem r hr with ⟨h1, h2⟩ | ⟨h1, h2, h3⟩
    · exact h2
    · rw [hc] at h1; exact absurd h1 (by decide)
  · intro r hr hd
    rcases hmem r hr with ⟨h1, h2⟩ | ⟨h1, h2, h3⟩
    · rw [hd] at h1; exact absurd h1 (by decide)
    · exact h2
  · rw [List.length_map]
    exact specRecords_length_le O N

set_option maxRecDepth 100000 in
/-- C20, witness: for `O = [1,2,3,4]`, `N = [1,0x99,3]` the records read back are
`(1, c)` and `(3, d)`. -/
theorem Diff_record_bounds_witness :
    (∃ text, diffText 5 [1, 2, 3, 4] [1, 0x99, 3] (fun _ => 0) (fun _ => 0) = some text ∧
      (∀ r ∈ recordsRead text,
        (r.2 = some 'c' ∨ r.2 = some 'd') ∧ r.1 < [(1 : Byte), 2, 3, 4].length) ∧
      ((recordsRead text).map Prod.fst).Pairwise (· < ·) ∧
      (∀ r ∈ recordsRead text, r.2 = some 'c' →
        r.1 < min [(1 : Byte), 2, 3, 4].length [(1 : Byte), 0x99, 3].length) ∧
      (∀ r ∈ recordsRead text, r.2 = some 'd' → [(1 : Byte), 0x99, 3].length ≤ r.1) ∧
      (recordsRead text).length ≤ [(1 : Byte), 2, 3, 4].length) ∧
    (diffText 5 [1, 2, 3, 4] [1, 0x99, 3] (fun _ => 0) (fun _ => 0)).map recordsRead
      = some [(1, some 'c'), (3, some 'd')] :=
  ⟨Diff_record_bounds [1, 2, 3, 4] [1, 0x99, 3] (fun _ => 0) (fun _ => 0) 5
      (by decide) (by decide) (by decide),
    by decide⟩

/-! ## Further claims about `Restore` -/

set_option maxRecDepth 100000 in
/-- C14. The code on `O = [1,2,3,4]`, `N = [9,2,8,4]`: `Diff` writes the lines `0 c 1 9`
and `2 c 3 8`; when `Restore` dispatches the second `c` record, of offset `2`, three
bytes of the old file have been consumed, not two, and the byte the `c` branch is
about to discard is `O[3] = 4`, not `O[2] = 3`. The record loop ends with
`9 2 3 8 8` pending as output. -/
theorem Restore_second_change_case :
    diffText 5 [1, 2, 3, 4] [9, 2, 8, 4] (fun _ => 0) (fun _ => 0)
        = some "0 c 1 9\n2 c 3 8\n".toList ∧
      ((Restore.iterate 5 1
          (Restore.enter (IfstreamHangler.create [1, 2, 3, 4] fun _ => 0)
            (Ifstream.create "0 c 1 9\n2 c 3 8\n".toList)
            (OfstreamHangler.create fun _ => 0) 0)).bind
        fun s => (Restore.copyForward 5 (Restore.readHeader s)).map
          fun s1 => (s1.type, s1.offset, s1.old_file.done_, s1.old_file.GetByte.1))
        = some (['c'], 2, 3, 4) ∧
      (Restore.records 5 5
          (Restore.enter (IfstreamHangler.create [1, 2, 3, 4] fun _ => 0)
            (Ifstream.create "0 c 1 9\n2 c 3 8\n".toList)
            (OfstreamHangler.create fun _ => 0) 0)).map Outcome.report
        = some (none, [9, 2, 3, 8, 8]) := by
  refine ⟨by decide, by decide, by decide⟩

set_option maxRecDepth 100000 in
/-- C15. The code on `O = [0x01]` with the single insert line `1 i 2`: when the line is
ended by its newline, `Restore` returns the output `[0x01,0x02,0x02]`, the inserted
byte written twice; only when the text stops right after the `2`, with no newline,
is the output `[0x01,0x02]`. -/
theorem Restore_insert_case :
    (∀ fuel, restoreFile (fuel + 3) [0x01] "1 i 2\n".toList (fun _ => 0) (fun _ => 0) 0
        = some (none, [0x01, 0x02, 0x02])) ∧
      ∀ fuel, restoreFile (fuel + 3) [0x01] "1 i 2".toList (fun _ => 0) (fun _ => 0) 0
        = some (none, [0x01, 0x02]) :=
  ⟨fun fuel => restoreFile_mono (f := 3) (by decide) (Nat.le_add_left 3 fuel),
    fun fuel => restoreFile_mono (f := 3) (by decide) (Nat.le_add_left 3 fuel)⟩

set_option maxRecDepth 100000 in
/-- C18. The code on the equal-length files `O = [0xAA,0xBB]`, `N = [0xAA,0xCC]`: `Diff`
writes the line `1 c 187 204`. After the first pass of the record loop `eof()` is still
false; in the second pass the stale tag `c` is dispatched while the old reader is at
its end (`IsEof` true, no byte left), and the `GetByte` of the `c` branch takes the
count of consumed bytes to `3` for a file of `2` bytes. -/
theorem Restore_reads_past_end_case :
    diffText 3 [0xAA, 0xBB] [0xAA, 0xCC] (fun _ => 0) (fun _ => 0)
        = some "1 c 187 204\n".toList ∧
      ((Restore.iterate 3 1
          (Restore.enter (IfstreamHangler.create [0xAA, 0xBB] fun _ => 0)
            (Ifstream.create "1 c 187 204\n".toList)
            (OfstreamHangler.create fun _ => 0) 0)).bind
        fun s => (Restore.copyForward 3 (Restore.readHeader s)).map
          fun s1 => (s.in_file.eof, s1.type, s1.old_file.IsEof, s1.old_file.hasMore,
            (Restore.dispatch s1).state.old_file.done_,
            (Restore.dispatch s1).state.old_file.sz_))
        = some (false, ['c'], true, false, 3, 2) := by
  refine ⟨by decide, by decide⟩

end BinDiff
